import Mathlib

/-!
# Verification of `sync.py` (pySync)

A shallow embedding of the one-way directory synchronizer in `sync.py`.

The filesystem is modelled as a finite tree of named directories and files.
A directory listing is an ordered association list, matching the order in
which `os.scandir`/`os.walk` reports entries; file metadata is an abstract
modification time (`Nat`) plus abstract byte content (`Nat`).  Directory
modification times are carried as abstract labels: the model does not
advance a directory's timestamp when entries are created inside it, since
`sync.py` only reads directory timestamps in the degenerate case where a
source file path coincides with a destination directory path.

Each root (`src`, `dest`) of `sync(src, dest)` is an `Option Tree`:
`none` models a root path at which no filesystem entry exists.

Fallible operations (`os.makedirs`, `shutil.copy2`) return `Except`:
`SyncError.entryOSErr` stands for the `OSError` family raised by the Python
standard library.  `sync` has no exception handler, so an error aborts the
whole pass, exactly as in the source.
-/

namespace PySync

/-- A path relative to a root: a list of name segments. `[]` is the root. -/
abbrev Path := List String

/-- Metadata and content of a regular file: `st_mtime` and abstract bytes. -/
structure FileData where
  mtime : Nat
  content : Nat
deriving DecidableEq, Repr

/-- A directory node: its own modification time, its immediate
subdirectories and its immediate files, in listing order. -/
inductive Tree where
  | node (mtime : Nat) (dirs : List (String × Tree)) (files : List (String × FileData)) : Tree
deriving Repr

/-- What `os.path` finds at a path: a directory subtree or a file. -/
inductive Entry where
  | dir (t : Tree)
  | file (fd : FileData)
deriving Repr

/-- The structured change events `sync` logs, with the relative path that
appears in the log line. -/
inductive Event where
  | dirCreated (p : Path)
  | fileCreated (p : Path)
  | fileModified (p : Path)
  | fileRemoved (p : Path)
  | dirRemoved (p : Path)
deriving DecidableEq, Repr

/-- The `OSError` family raised by `os`/`shutil` calls.  `sync` installs no
handler, so one of these aborts the pass. -/
inductive SyncError where
  | entryOSErr
deriving DecidableEq, Repr

/-- First binding of a name in a directory listing (`os.scandir` order). -/
def lookupE {α : Type} : List (String × α) → String → Option α
  | [], _ => none
  | (a, b) :: rest, k => if a = k then some b else lookupE rest k

/-- Replace the first binding of `k`, or append a fresh binding at the end
of the listing (a newly created entry appears after the existing ones). -/
def setE {α : Type} : List (String × α) → String → α → List (String × α)
  | [], k, v => [(k, v)]
  | (a, b) :: rest, k, v => if a = k then (a, v) :: rest else (a, b) :: setE rest k v

/-- Update the first binding of `k` if present; otherwise leave the listing
unchanged. -/
def updateE {α : Type} : List (String × α) → String → α → List (String × α)
  | [], _, _ => []
  | (a, b) :: rest, k, v => if a = k then (a, v) :: rest else (a, b) :: updateE rest k v

/-- Resolve a relative path inside a tree, the way `os.path` resolves
`os.path.join(root, *p)`: descend through directories; a file matches only
as the final segment. -/
def Tree.find : Tree → Path → Option Entry
  | t, [] => some (.dir t)
  | .node _ ds fs, x :: xs =>
    match lookupE ds x with
    | some sub => sub.find xs
    | none =>
      match xs with
      | [] => (lookupE fs x).map .file
      | _ :: _ => none

/-- `os.path.exists(root ++ p)` for a root that may itself be absent. -/
def fsExists : Option Tree → Path → Bool
  | none, _ => false
  | some t, p => (t.find p).isSome

/-- `os.path.getmtime(root ++ p)`.  `sync` only calls this after an
`os.path.exists` check succeeds; the `0` defaults are unreachable there. -/
def getmtime : Option Tree → Path → Nat
  | none, _ => 0
  | some t, p =>
    match t.find p with
    | some (.dir (.node m _ _)) => m
    | some (.file fd) => fd.mtime
    | none => 0

/-- `os.makedirs(root ++ p, exist_ok=True)` below an existing root:
creates every missing directory component; raises if a file occupies any
component.  Newly created directories get the abstract timestamp `0`. -/
def Tree.mkdirs : Tree → Path → Except SyncError Tree
  | t, [] => .ok t
  | .node m ds fs, x :: xs =>
    match lookupE ds x with
    | some sub => (sub.mkdirs xs).map fun sub' => .node m (updateE ds x sub') fs
    | none =>
      match lookupE fs x with
      | some _ => .error .entryOSErr
      | none => ((Tree.node 0 [] []).mkdirs xs).map fun sub' => .node m (ds ++ [(x, sub')]) fs

/-- `os.makedirs(root ++ p, exist_ok=True)`: when the root itself does not
exist it is created as well. -/
def mkdirsRoot : Option Tree → Path → Except SyncError (Option Tree)
  | some t, p => (t.mkdirs p).map some
  | none, p => ((Tree.node 0 [] []).mkdirs p).map some

/-- `shutil.copy2(src_file, root ++ p)`: overwrite or create the file at
`p`, copying content and modification time.  If an existing directory
occupies `p`, `copy2` retargets to `p ++ [basename]` (here the basename
equals the last segment of `p`) and raises if that is again a directory.
A missing parent directory raises (`FileNotFoundError`). -/
def Tree.copy2 : Tree → Path → FileData → Except SyncError Tree
  | _, [], _ => .error .entryOSErr
  | .node m ds fs, x :: xs, fd =>
    match xs with
    | [] =>
      match lookupE ds x with
      | some (.node m2 ds2 fs2) =>
        match lookupE ds2 x with
        | some _ => .error .entryOSErr
        | none => .ok (.node m (updateE ds x (.node m2 ds2 (setE fs2 x fd))) fs)
      | none => .ok (.node m ds (setE fs x fd))
    | _ :: _ =>
      match lookupE ds x with
      | some sub => (sub.copy2 xs fd).map fun sub' => .node m (updateE ds x sub') fs
      | none => .error .entryOSErr

/-- `shutil.copy2` against a root that may be absent: a missing destination
root means the parent directory of the target is missing, which raises. -/
def copy2Root : Option Tree → Path → FileData → Except SyncError (Option Tree)
  | some t, p, fd => (t.copy2 p fd).map some
  | none, _, _ => .error .entryOSErr

/-- One iteration of the directory loop of Phase A (`sync.py` lines
113–120): the walk is at source directory `p`, looking at subdirectory
name `d`. -/
def dirStep (dest : Option Tree) (p : Path) (d : String) :
    Except SyncError (Option Tree × List Event) :=
  if fsExists dest (p ++ [d]) then .ok (dest, [])
  else (mkdirsRoot dest (p ++ [d])).map fun dest' => (dest', [.dirCreated (p ++ [d])])

/-- The directory loop of Phase A over one walk node's subdirectory
listing, threading the destination state. -/
def dirPass : Option Tree → Path → List (String × Tree) →
    Except SyncError (Option Tree × List Event)
  | dest, _, [] => .ok (dest, [])
  | dest, p, (d, _) :: rest => do
    let (d1, ev1) ← dirStep dest p d
    let (d2, ev2) ← dirPass d1 p rest
    .ok (d2, ev1 ++ ev2)

/-- One iteration of the file loop of Phase A (`sync.py` lines 123–133):
create the missing destination file, overwrite it when the source file is
strictly newer, otherwise do nothing. -/
def fileStep (dest : Option Tree) (p : Path) (f : String) (fd : FileData) :
    Except SyncError (Option Tree × List Event) :=
  if fsExists dest (p ++ [f]) = false then
    (copy2Root dest (p ++ [f]) fd).map fun dest' => (dest', [.fileCreated (p ++ [f])])
  else if fd.mtime > getmtime dest (p ++ [f]) then
    (copy2Root dest (p ++ [f]) fd).map fun dest' => (dest', [.fileModified (p ++ [f])])
  else
    .ok (dest, [])

/-- The file loop of Phase A over one walk node's file listing. -/
def filePass : Option Tree → Path → List (String × FileData) →
    Except SyncError (Option Tree × List Event)
  | dest, _, [] => .ok (dest, [])
  | dest, p, (f, fd) :: rest => do
    let (d1, ev1) ← fileStep dest p f fd
    let (d2, ev2) ← filePass d1 p rest
    .ok (d2, ev1 ++ ev2)

mutual

/-- Phase A (`for root, dirs, files in os.walk(src)`, lines 110–133) for
the walk subtree rooted at source-relative path `p`: `os.walk` is top-down,
so the node's directory loop and file loop run first, then the walk
descends into each subdirectory in listing order.  The source is never
mutated during Phase A, so the lazy generator and this eager recursion
visit identical listings. -/
def phaseA : Tree → Path → Option Tree → Except SyncError (Option Tree × List Event)
  | .node _ ds fs, p, dest => do
    let (d1, ev1) ← dirPass dest p ds
    let (d2, ev2) ← filePass d1 p fs
    let (d3, ev3) ← phaseAChildren ds p d2
    .ok (d3, ev1 ++ ev2 ++ ev3)

/-- Descent of the Phase A walk into the subdirectories of one node, in
listing order. -/
def phaseAChildren : List (String × Tree) → Path → Option Tree →
    Except SyncError (Option Tree × List Event)
  | [], _, dest => .ok (dest, [])
  | (d, sub) :: rest, p, dest => do
    let (d1, ev1) ← phaseA sub (p ++ [d]) dest
    let (d2, ev2) ← phaseAChildren rest p d1
    .ok (d2, ev1 ++ ev2)

end

/-- Phase A from the source root: `os.walk` on a non-existent root yields
nothing, so the phase is a silent no-op in that case. -/
def phaseARoot : Option Tree → Option Tree → Except SyncError (Option Tree × List Event)
  | none, dest => .ok (dest, [])
  | some t, dest => phaseA t [] dest

mutual

/-- Phase B (`for root, dirs, files in os.walk(dest)`, lines 135–154) for
the destination subtree rooted at destination-relative path `p`.

The walk is lazy and reads each directory's listing when it first reaches
it, but every mutation Phase B performs while processing a node
(`os.remove` of the node's own files, `shutil.rmtree` of the node's own
subdirectories) is confined to that node's subtree, and `os.walk` silently
yields nothing for a directory removed before the walk descends into it.
Consequently the walk visits exactly: the node's current listing, then the
kept subdirectories with their untouched subtrees.  This recursion
reproduces that behaviour: files without a source counterpart are dropped
(`os.remove`, one `FileRemoved` each, in listing order), then
subdirectories without a source counterpart are dropped wholesale
(`shutil.rmtree`, one `DirectoryRemoved` for the subtree root only), then
the walk descends into the kept subdirectories.  The counterpart test is
`os.path.exists`, which accepts a source entry of either kind. -/
def pruneTree (src : Option Tree) (p : Path) : Tree → Tree × List Event
  | .node m ds fs =>
    let keptF := fs.filter fun fe => fsExists src (p ++ [fe.1])
    let evF := (fs.filter fun fe => !fsExists src (p ++ [fe.1])).map
      fun fe => Event.fileRemoved (p ++ [fe.1])
    let evD := (ds.filter fun de => !fsExists src (p ++ [de.1])).map
      fun de => Event.dirRemoved (p ++ [de.1])
    let (ds', evRec) := pruneChildren src p ds
    (.node m ds' keptF, evF ++ evD ++ evRec)

/-- Descent of the Phase B walk into one node's subdirectories: a
subdirectory removed by `shutil.rmtree` yields nothing when the walk
reaches it; a kept one is pruned recursively. -/
def pruneChildren (src : Option Tree) (p : Path) : List (String × Tree) →
    List (String × Tree) × List Event
  | [] => ([], [])
  | (d, sub) :: rest =>
    if fsExists src (p ++ [d]) then
      let (t', ev1) := pruneTree src (p ++ [d]) sub
      let (rest', ev2) := pruneChildren src p rest
      ((d, t') :: rest', ev1 ++ ev2)
    else
      let (rest', ev2) := pruneChildren src p rest
      (rest', ev2)

end

/-- Phase B from the destination root: `os.walk` on a non-existent root
yields nothing; the root directory itself is never removed. -/
def pruneRoot (src : Option Tree) : Option Tree → Option Tree × List Event
  | none => (none, [])
  | some t =>
    let (t', ev) := pruneTree src [] t
    (some t', ev)

/-- One pass of `sync(src, dest)` (`sync.py` lines 102–158): Phase A
(create/update, source walk) followed by Phase B (prune, destination walk).
The returned state is the destination after the pass, with the events in
emission order.  An `OSError` from any entry operation propagates and
aborts the pass, as in the source, which has no handler. -/
def sync (src dest : Option Tree) : Except SyncError (Option Tree × List Event) := do
  let (d1, evA) ← phaseARoot src dest
  let (d2, evB) := pruneRoot src d1
  .ok (d2, evA ++ evB)

/-- Membership of a name in a name list. -/
def memB : List String → String → Bool
  | [], _ => false
  | y :: ys, x => if y = x then true else memB ys x

/-- No name occurs twice in the list. -/
def freshKeys : List String → Bool
  | [] => true
  | x :: xs => !memB xs x && freshKeys xs

mutual

/-- Well-formedness, as any real directory tree guarantees it: within each
directory, the entry names — subdirectories and files together — are
pairwise distinct. -/
def Tree.wfB : Tree → Bool
  | .node _ ds fs => freshKeys (ds.map Prod.fst ++ fs.map Prod.fst) && wfList ds

/-- `Tree.wfB` for every subtree in a listing. -/
def wfList : List (String × Tree) → Bool
  | [] => true
  | (_, sub) :: rest => sub.wfB && wfList rest

end

mutual

/-- Erase every directory modification time (to `0`), keeping structure,
listing order and file data.  Two trees with equal `strip` agree in
relative paths, entry kinds, file contents and file modification times. -/
def Tree.strip : Tree → Tree
  | .node _ ds fs => .node 0 (stripList ds) fs

/-- `Tree.strip` over a listing. -/
def stripList : List (String × Tree) → List (String × Tree)
  | [] => []
  | (d, sub) :: rest => (d, sub.strip) :: stripList rest

end

/-- `Tree.strip` with a prescribed timestamp on the root node: the tree
Phase A builds into a destination directory whose own timestamp is `mq`. -/
def stripRoot : Tree → Nat → Tree
  | .node _ ds fs, mq => .node mq (stripList ds) fs

/-- `Tree.strip` on the entry level. -/
def entryStrip : Entry → Entry
  | .dir t => .dir t.strip
  | .file fd => .file fd

mutual

/-- Kind-consistency of two trees: no relative path resolves to a
directory in one and to a file in the other. -/
def kindCons : Tree → Tree → Bool
  | .node _ ds fs, .node _ ds' fs' =>
    kindConsDirs ds ds' fs' && fs.all fun fe => (lookupE ds' fe.1).isNone

/-- Kind-consistency of the subdirectories of a node against the other
node's listing: a subdirectory name may not be a file name on the other
side, and common subdirectories must be kind-consistent. -/
def kindConsDirs : List (String × Tree) → List (String × Tree) → List (String × FileData) → Bool
  | [], _, _ => true
  | (d, sub) :: rest, ds', fs' =>
    (match lookupE ds' d with
     | some sub' => kindCons sub sub'
     | none => (lookupE fs' d).isNone) && kindConsDirs rest ds' fs'

end

/-- Resolution of an entry found by `Tree.find`, continued along a further
relative path: used to split `find` over an appended path. -/
def followE : Option Entry → Path → Option Entry
  | e, [] => e
  | some (.dir t), r => t.find r
  | _, _ => none

/-- Replace the subtree at an existing directory path; if the path does
not resolve through directories, the tree is unchanged. -/
def setSubtree : Tree → Path → Tree → Tree
  | _, [], t' => t'
  | .node m ds fs, x :: xs, t' =>
    match lookupE ds x with
    | some sub => .node m (updateE ds x (setSubtree sub xs t')) fs
    | none => .node m ds fs

/-- The directory subtree of a world tree at a path (`none` when the path
is absent or names a file). -/
def subtreeAt (w : Tree) (p : Path) : Option Tree :=
  match w.find p with
  | some (.dir t) => some t
  | _ => none

/-- Neither path is a prefix of the other: the two roots name disjoint
filesystem regions. -/
def pathsDiverge : Path → Path → Bool
  | [], _ => false
  | _, [] => false
  | x :: xs, y :: ys => if x = y then pathsDiverge xs ys else true

/-- One pass viewed inside a single world tree `w` that holds both roots:
`sync.py` receives two path arguments into one filesystem, reads the
subtrees at those paths, and every mutating call (`os.makedirs`,
`shutil.copy2`, `os.remove`, `shutil.rmtree`) targets a path prefixed by
the destination argument.  This wrapper reads both subtrees, runs the
pass, and writes the resulting destination subtree back at the
destination path.  It is the two-root view of `sync` and is faithful when
the two root paths do not overlap (when they do, destination writes alias
source paths, which the separated `sync` state cannot express). -/
def worldSync (w : Tree) (srcP destP : Path) : Option (Tree × List Event) :=
  match sync (subtreeAt w srcP) (subtreeAt w destP) with
  | .ok (some d', ev) => some (setSubtree w destP d', ev)
  | .ok (none, ev) => some (w, ev)
  | .error _ => none

/-- The destination covers the source: every source directory path is a
destination directory path, and every source file path is a destination
file path whose modification time is at least the source's.  This is the
state Phase A establishes. -/
def Covers (s t : Tree) : Prop := ∀ p : Path,
  (∀ sub, s.find p = some (.dir sub) → ∃ sub', t.find p = some (.dir sub')) ∧
  (∀ fd, s.find p = some (.file fd) →
    ∃ fd', t.find p = some (.file fd') ∧ fd.mtime ≤ fd'.mtime)

/-- Every destination entry has a source counterpart of some kind at the
same relative path.  This is the state Phase B establishes. -/
def Within (s t : Tree) : Prop := ∀ (p : Path) (e : Entry),
  t.find p = some e → (s.find p).isSome = true

/-! ## Basic lemmas about listings and path resolution -/

@[simp] theorem fsExists_none (p : Path) : fsExists none p = false := rfl

@[simp] theorem lookupE_nil {α : Type} (k : String) :
    lookupE ([] : List (String × α)) k = none := rfl

@[simp] theorem lookupE_cons {α : Type} (a : String) (b : α) (rest : List (String × α))
    (k : String) :
    lookupE ((a, b) :: rest) k = if a = k then some b else lookupE rest k := rfl

theorem lookupE_setE_self {α : Type} (xs : List (String × α)) (k : String) (v : α) :
    lookupE (setE xs k v) k = some v := by
  induction xs with
  | nil => simp [setE]
  | cons hd tl ih =>
    obtain ⟨a, b⟩ := hd
    by_cases h : a = k <;> simp [setE, h, ih]

theorem lookupE_setE_other {α : Type} (xs : List (String × α)) (k a : String) (v : α)
    (h : a ≠ k) : lookupE (setE xs k v) a = lookupE xs a := by
  have hka : ¬ k = a := fun hh => h hh.symm
  induction xs with
  | nil => simp [setE, hka]
  | cons hd tl ih =>
    obtain ⟨x, b⟩ := hd
    by_cases hx : x = k
    · subst hx
      simp [setE, hka]
    · simp [setE, hx, ih]

theorem lookupE_updateE_self {α : Type} (xs : List (String × α)) (k : String) (v b : α)
    (h : lookupE xs k = some b) : lookupE (updateE xs k v) k = some v := by
  induction xs with
  | nil => simp at h
  | cons hd tl ih =>
    obtain ⟨a, c⟩ := hd
    by_cases ha : a = k
    · subst ha
      simp [updateE]
    · simp only [lookupE_cons, if_neg ha] at h
      simp [updateE, ha, ih h]

theorem lookupE_updateE_other {α : Type} (xs : List (String × α)) (k a : String) (v : α)
    (h : a ≠ k) : lookupE (updateE xs k v) a = lookupE xs a := by
  have hka : ¬ k = a := fun hh => h hh.symm
  induction xs with
  | nil => simp [updateE]
  | cons hd tl ih =>
    obtain ⟨x, b⟩ := hd
    by_cases hx : x = k
    · subst hx
      simp [updateE, hka]
    · simp [updateE, hx, ih]

theorem updateE_of_lookupE_none {α : Type} (xs : List (String × α)) (k : String) (v : α)
    (h : lookupE xs k = none) : updateE xs k v = xs := by
  induction xs with
  | nil => rfl
  | cons hd tl ih =>
    obtain ⟨a, b⟩ := hd
    by_cases ha : a = k <;> simp_all [updateE, lookupE]

theorem lookupE_append_left {α : Type} {xs ys : List (String × α)} {k : String} {v : α}
    (h : lookupE xs k = some v) : lookupE (xs ++ ys) k = some v := by
  induction xs with
  | nil => simp at h
  | cons hd tl ih =>
    obtain ⟨a, b⟩ := hd
    by_cases ha : a = k <;> simp_all [lookupE]

theorem lookupE_append_right {α : Type} {xs : List (String × α)} (ys : List (String × α))
    {k : String} (h : lookupE xs k = none) : lookupE (xs ++ ys) k = lookupE ys k := by
  induction xs with
  | nil => simp
  | cons hd tl ih =>
    obtain ⟨a, b⟩ := hd
    by_cases ha : a = k <;> simp_all [lookupE]

@[simp] theorem find_nil (t : Tree) : t.find [] = some (.dir t) := by
  obtain ⟨m, ds, fs⟩ := t
  rfl

@[simp] theorem fsExists_some (t : Tree) (p : Path) :
    fsExists (some t) p = (t.find p).isSome := rfl

theorem find_cons_dir {ds : List (String × Tree)} {x : String} {sub : Tree}
    (m : Nat) (fs : List (String × FileData)) (xs : Path) (h : lookupE ds x = some sub) :
    (Tree.node m ds fs).find (x :: xs) = sub.find xs := by
  simp [Tree.find, h]

theorem find_singleton_file {ds : List (String × Tree)} {x : String}
    (m : Nat) (fs : List (String × FileData)) (h : lookupE ds x = none) :
    (Tree.node m ds fs).find [x] = (lookupE fs x).map .file := by
  simp [Tree.find, h]

theorem find_cons_miss {ds : List (String × Tree)} {x y : String}
    (m : Nat) (fs : List (String × FileData)) (ys : Path) (h : lookupE ds x = none) :
    (Tree.node m ds fs).find (x :: y :: ys) = none := by
  simp [Tree.find, h]

theorem find_append (p : Path) : ∀ (t : Tree) (r : Path),
    t.find (p ++ r) = followE (t.find p) r := by
  induction p with
  | nil =>
    intro t r
    cases r <;> simp [followE]
  | cons x p' ih =>
    intro t r
    obtain ⟨m, ds, fs⟩ := t
    simp only [List.cons_append]
    cases h : lookupE ds x with
    | some sub =>
      rw [find_cons_dir m fs _ h, find_cons_dir m fs _ h, ih]
    | none =>
      cases p' with
      | nil =>
        cases r with
        | nil => simp [followE]
        | cons y ys =>
          rw [List.nil_append, find_cons_miss m fs ys h, find_singleton_file m fs h]
          cases hf : lookupE fs x <;> simp [followE]
      | cons z zs =>
        simp only [List.cons_append]
        rw [find_cons_miss m fs _ h, find_cons_miss m fs _ h]
        cases r <;> simp [followE]

/-! ## Reduction lemmas for `mkdirs` and `copy2` -/

theorem mkdirs_cons_dir {ds : List (String × Tree)} {x : String} {sub : Tree}
    (m : Nat) (fs : List (String × FileData)) (xs : Path) (h : lookupE ds x = some sub) :
    (Tree.node m ds fs).mkdirs (x :: xs) =
      (sub.mkdirs xs).map fun sub' => .node m (updateE ds x sub') fs := by
  simp [Tree.mkdirs, h]

theorem mkdirs_cons_fresh {ds : List (String × Tree)} {fs : List (String × FileData)}
    {x : String} (m : Nat) (xs : Path)
    (hd : lookupE ds x = none) (hf : lookupE fs x = none) :
    (Tree.node m ds fs).mkdirs (x :: xs) =
      ((Tree.node 0 [] []).mkdirs xs).map fun sub' => .node m (ds ++ [(x, sub')]) fs := by
  simp [Tree.mkdirs, hd, hf]

theorem mkdirs_cons_file {ds : List (String × Tree)} {fs : List (String × FileData)}
    {x : String} {fd : FileData} (m : Nat) (xs : Path)
    (hd : lookupE ds x = none) (hf : lookupE fs x = some fd) :
    (Tree.node m ds fs).mkdirs (x :: xs) = .error .entryOSErr := by
  simp [Tree.mkdirs, hd, hf]

theorem copy2_single_flat {ds : List (String × Tree)} {f : String}
    (m : Nat) (fs : List (String × FileData)) (fd : FileData)
    (h : lookupE ds f = none) :
    (Tree.node m ds fs).copy2 [f] fd = .ok (.node m ds (setE fs f fd)) := by
  simp [Tree.copy2, h]

theorem copy2_cons_descend {ds : List (String × Tree)} {x : String} {sub : Tree}
    (m : Nat) (fs : List (String × FileData)) (xs : Path) (fd : FileData)
    (hxs : xs ≠ []) (h : lookupE ds x = some sub) :
    (Tree.node m ds fs).copy2 (x :: xs) fd =
      (sub.copy2 xs fd).map fun sub' => .node m (updateE ds x sub') fs := by
  cases xs with
  | nil => exact absurd rfl hxs
  | cons y ys => simp [Tree.copy2, h]

/-- After a successful `mkdirs` on `q ++ r`, every prefix `q` of the made
path exists. -/
theorem mkdirs_makes_ancestors : ∀ (q : Path) (t t' : Tree) (r : Path),
    t.mkdirs (q ++ r) = .ok t' → (t'.find q).isSome = true := by
  intro q
  induction q with
  | nil =>
    intro t t' r h
    simp
  | cons x q' ih =>
    intro t t' r h
    obtain ⟨m, ds, fs⟩ := t
    simp only [List.cons_append] at h
    cases hx : lookupE ds x with
    | some sub =>
      rw [mkdirs_cons_dir m fs _ hx] at h
      cases hm : sub.mkdirs (q' ++ r) with
      | error e => rw [hm] at h; simp [Except.map] at h
      | ok sub' =>
        rw [hm] at h
        simp only [Except.map] at h
        cases h
        rw [find_cons_dir m fs q' (lookupE_updateE_self ds x sub' sub hx)]
        exact ih sub sub' r hm
    | none =>
      cases hf : lookupE fs x with
      | some fd =>
        rw [mkdirs_cons_file m _ hx hf] at h
        cases h
      | none =>
        rw [mkdirs_cons_fresh m _ hx hf] at h
        cases hm : (Tree.node 0 [] []).mkdirs (q' ++ r) with
        | error e => rw [hm] at h; simp [Except.map] at h
        | ok sub' =>
          rw [hm] at h
          simp only [Except.map] at h
          cases h
          have hl : lookupE (ds ++ [(x, sub')]) x = some sub' := by
            rw [lookupE_append_right _ hx]
            simp
          rw [find_cons_dir m fs q' hl]
          exact ih _ sub' r hm

/-- `shutil.copy2` over an existing destination file: it succeeds and
replaces exactly that file's data. -/
theorem copy2_find_file : ∀ (p : Path) (t : Tree) (f : String) (fd fd' : FileData),
    t.find (p ++ [f]) = some (.file fd') →
    ∃ t', t.copy2 (p ++ [f]) fd = .ok t' ∧ t'.find (p ++ [f]) = some (.file fd) := by
  intro p
  induction p with
  | nil =>
    intro t f fd fd' h
    obtain ⟨m, ds, fs⟩ := t
    rw [List.nil_append] at h ⊢
    cases hd : lookupE ds f with
    | some sub =>
      rw [find_cons_dir m fs [] hd] at h
      simp at h
    | none =>
      rw [find_singleton_file m fs hd] at h
      refine ⟨.node m ds (setE fs f fd), copy2_single_flat m fs fd hd, ?_⟩
      rw [find_singleton_file m _ hd, lookupE_setE_self]
      rfl
  | cons x p' ih =>
    intro t f fd fd' h
    obtain ⟨m, ds, fs⟩ := t
    simp only [List.cons_append] at h ⊢
    cases hd : lookupE ds x with
    | none =>
      exfalso
      cases p' with
      | nil =>
        rw [List.nil_append, find_cons_miss m fs [] hd] at h
        cases h
      | cons z zs =>
        simp only [List.cons_append] at h
        rw [find_cons_miss m fs _ hd] at h
        cases h
    | some sub =>
      rw [find_cons_dir m fs _ hd] at h
      obtain ⟨sub', hs1, hs2⟩ := ih sub f fd fd' h
      refine ⟨.node m (updateE ds x sub') fs, ?_, ?_⟩
      · rw [copy2_cons_descend m fs _ fd (by simp) hd, hs1]
        rfl
      · rw [find_cons_dir m fs _ (lookupE_updateE_self ds x sub' sub hd)]
        exact hs2

/-! ## Claims settled by direct computation or local analysis -/

/-- Claim C3: the spec requires a pass whose source root does not exist to
fail with `RootUnreadable`, report the error, and sync or prune nothing.
The code does the opposite: `os.walk` on a missing root silently yields
nothing, so the pass completes without any error and Phase B then prunes
every destination entry.  This theorem evaluates the code at the failing
input (missing source root, destination holding one file): the pass
returns success and emits a `FileRemoved` event for the pruned file. -/
theorem C3_missing_root_not_aborted :
    sync none (some (Tree.node 0 [] [("a.txt", ⟨1, 1⟩)])) =
      .ok (some (.node 0 [] []), [.fileRemoved ["a.txt"]]) := rfl

/-- In Phase B with a missing source root, no subdirectory has a source
counterpart, so every child is dropped without being descended into. -/
theorem pruneChildren_none_src (p : Path) (ds : List (String × Tree)) :
    pruneChildren none p ds = ([], []) := by
  induction ds with
  | nil => rfl
  | cons hd tl ih =>
    obtain ⟨d, sub⟩ := hd
    simp [pruneChildren, ih]

/-- Claim C4: if the source root does not exist, `sync` raises nothing and
completes normally; Phase A is a silent no-op and Phase B removes every
file and every top-level directory subtree of the destination, leaving the
destination root empty, with one `FileRemoved` per top-level file and one
`DirectoryRemoved` per top-level subdirectory, in listing order. -/
theorem C4_missing_source_prunes_destination (m : Nat) (ds : List (String × Tree))
    (fs : List (String × FileData)) :
    sync none (some (.node m ds fs)) =
      .ok (some (.node m [] []),
        fs.map (fun fe => Event.fileRemoved [fe.1]) ++
          ds.map fun de => Event.dirRemoved [de.1]) := by
  simp [sync, phaseARoot, pruneRoot, pruneTree, pruneChildren_none_src, bind, Except.bind]

/-- Claim C5: the spec requires a failing copy/delete/mkdir to be skipped,
counted, and the phase to continue.  The code has no handler: the first
`OSError` propagates out of `sync` and aborts the pass (and, in the main
loop, the process).  At the failing input — a source with one top-level
file and a non-existent destination root — `shutil.copy2` raises
`FileNotFoundError` and the whole pass aborts with that error. -/
theorem C5_entry_error_aborts_pass :
    sync (some (Tree.node 0 [] [("a.txt", ⟨1, 1⟩)])) none = .error .entryOSErr := rfl

/-- Claim C6: for a source file whose destination counterpart exists as a
file, the destination is overwritten (with the source's data, emitting one
`FileModified`) precisely when the source modification time is strictly
greater; otherwise — equal or newer destination — the destination state is
returned entirely unchanged with no event, regardless of content. -/
theorem C6_mtime_gate (t : Tree) (p : Path) (f : String) (fd fd' : FileData)
    (h : t.find (p ++ [f]) = some (.file fd')) :
    (fd.mtime > fd'.mtime →
      ∃ t', fileStep (some t) p f fd = .ok (some t', [.fileModified (p ++ [f])]) ∧
        t'.find (p ++ [f]) = some (.file fd)) ∧
    (¬ fd.mtime > fd'.mtime → fileStep (some t) p f fd = .ok (some t, [])) := by
  have hex : fsExists (some t) (p ++ [f]) = true := by simp [h]
  have hmt : getmtime (some t) (p ++ [f]) = fd'.mtime := by simp [getmtime, h]
  constructor
  · intro hgt
    obtain ⟨t', h1, h2⟩ := copy2_find_file p t f fd fd' h
    refine ⟨t', ?_, h2⟩
    simp [fileStep, hex, hmt, hgt, copy2Root, h1, Except.map]
  · intro hle
    simp [fileStep, hex, hmt, hle]

/-- Witness for C6 at concrete inputs: an older source file (mtime 5
against 7) leaves the destination untouched even though contents differ;
a newer one (mtime 9) overwrites and emits one `FileModified`. -/
theorem C6_mtime_gate_witness :
    (fileStep (some (Tree.node 0 [] [("a", ⟨7, 5⟩)])) [] "a" ⟨5, 9⟩ =
      .ok (some (.node 0 [] [("a", ⟨7, 5⟩)]), [])) ∧
    (∃ t', fileStep (some (Tree.node 0 [] [("a", ⟨7, 5⟩)])) [] "a" ⟨9, 3⟩ =
      .ok (some t', [.fileModified ["a"]]) ∧ t'.find ["a"] = some (.file ⟨9, 3⟩)) := by
  constructor
  · exact (C6_mtime_gate (.node 0 [] [("a", ⟨7, 5⟩)]) [] "a" ⟨5, 9⟩ ⟨7, 5⟩ rfl).2 (by decide)
  · exact (C6_mtime_gate (.node 0 [] [("a", ⟨7, 5⟩)]) [] "a" ⟨9, 3⟩ ⟨7, 5⟩ rfl).1 (by decide)

/-- Claim C7 counterexample: the claim includes the source root itself
(relative path `[]`) among the directories created with a
`DirectoryCreated` event.  With an empty source tree and a non-existent
destination root, the code creates nothing and emits nothing: the
directory loop runs only over subdirectory names, never over the walk root
itself. -/
theorem C7_counterexample : sync (some (Tree.node 5 [] [])) none = .ok (none, []) := rfl

/-- Claim C7 as amended: for every directory name `d` listed at a source
walk node `p` — these are exactly the non-root source directories — if an
entry exists at the destination path the step is a silent no-op; if none
exists, the step emits exactly one `DirectoryCreated` event for `p ++ [d]`
and, when it succeeds, the created directory and all missing intermediate
ancestors (including the destination root) exist afterwards. -/
theorem C7_subdir_creation (dest : Option Tree) (p : Path) (d : String) :
    (fsExists dest (p ++ [d]) = true → dirStep dest p d = .ok (dest, [])) ∧
    (fsExists dest (p ++ [d]) = false →
      ∀ dest' ev, dirStep dest p d = .ok (dest', ev) →
        ev = [.dirCreated (p ++ [d])] ∧
        ∀ q r, q ++ r = p ++ [d] → fsExists dest' q = true) := by
  constructor
  · intro h
    simp [dirStep, h]
  · intro h dest' ev hrun
    simp only [dirStep, h, Bool.false_eq_true, if_false] at hrun
    cases hm : mkdirsRoot dest (p ++ [d]) with
    | error e => rw [hm] at hrun; simp [Except.map] at hrun
    | ok d2 =>
      rw [hm] at hrun
      simp only [Except.map, Except.ok.injEq, Prod.mk.injEq] at hrun
      obtain ⟨h1, h2⟩ := hrun
      subst h1
      subst h2
      refine ⟨rfl, ?_⟩
      intro q r hqr
      cases dest with
      | some t =>
        simp only [mkdirsRoot] at hm
        cases hmk : t.mkdirs (p ++ [d]) with
        | error e => rw [hmk] at hm; simp [Except.map] at hm
        | ok t2 =>
          rw [hmk] at hm
          simp only [Except.map, Except.ok.injEq] at hm
          subst hm
          rw [← hqr] at hmk
          simp [mkdirs_makes_ancestors q t t2 r hmk]
      | none =>
        simp only [mkdirsRoot] at hm
        cases hmk : (Tree.node 0 [] []).mkdirs (p ++ [d]) with
        | error e => rw [hmk] at hm; simp [Except.map] at hm
        | ok t2 =>
          rw [hmk] at hm
          simp only [Except.map, Except.ok.injEq] at hm
          subst hm
          rw [← hqr] at hmk
          simp [mkdirs_makes_ancestors q _ t2 r hmk]

/-- Witness for C7 as amended: an existing destination directory is left
alone silently; a missing one is created (here under relative path `b` of
an empty destination root, which then exists). -/
theorem C7_subdir_creation_witness :
    dirStep (some (Tree.node 9 [("a", .node 1 [] [])] [])) [] "a" =
      .ok (some (.node 9 [("a", .node 1 [] [])] []), []) ∧
    fsExists (some (Tree.node 9 [("b", .node 0 [] [])] [])) ["b"] = true := by
  constructor
  · exact (C7_subdir_creation (some (.node 9 [("a", .node 1 [] [])] [])) [] "a").1 rfl
  · exact ((C7_subdir_creation (some (.node 9 [] [])) [] "b").2 rfl
      (some (.node 9 [("b", .node 0 [] [])] [])) [.dirCreated ["b"]] rfl).2 ["b"] [] rfl

/-- Claim C9 counterexample: the claim prunes a destination directory when
no source directory exists at its relative path, but the code tests
`os.path.exists`, which also accepts a source file.  With a source file
`a` (older than the destination directory's timestamp, so Phase A does not
touch it) and a destination directory `a`, the pass removes nothing and
emits nothing, although `a` has no directory counterpart in the source. -/
theorem C9_counterexample :
    sync (some (Tree.node 0 [] [("a", ⟨3, 1⟩)]))
        (some (.node 0 [("a", .node 7 [] [])] [])) =
      .ok (some (.node 0 [("a", .node 7 [] [])] []), []) := rfl

/-- Claim C9 as amended: for a destination directory whose relative path
has no entry of any kind (file or directory) under the source root,
Phase B drops the entire subtree in one step, emits exactly one
`DirectoryRemoved` event for the subtree root only — no event for any
descendant, whatever the subtree contains — and never descends into the
removed subtree. -/
theorem C9_prune_on_no_source_entry (src : Option Tree) (p : Path) (m : Nat) (d : String)
    (sub : Tree) (h : fsExists src (p ++ [d]) = false) :
    pruneTree src p (.node m [(d, sub)] []) = (.node m [] [], [.dirRemoved (p ++ [d])]) := by
  simp [pruneTree, pruneChildren, h]

/-- Witness for C9 as amended: a destination subtree `g` containing a
nested directory and a file disappears wholesale with a single
`DirectoryRemoved g` event and no per-descendant events. -/
theorem C9_prune_on_no_source_entry_witness :
    pruneTree none [] (.node 0 [("g", .node 1 [("x", .node 2 [] [])] [("y", ⟨1, 1⟩)])] []) =
      (.node 0 [] [], [.dirRemoved ["g"]]) :=
  C9_prune_on_no_source_entry none [] 0 "g" _ rfl

/-- Claim C2 counterexample: with source file `a` carrying a far-future
modification time and the destination holding a directory `a`, a pass
succeeds but returns the destination unchanged while emitting events
(`copy2` drops the copy inside the directory, Phase B removes it again).
The immediately following pass therefore starts from the identical state
and emits the same non-empty event list, contradicting "zero events". -/
theorem C2_counterexample :
    sync (some (Tree.node 0 [] [("a", ⟨4102444800, 1⟩)]))
        (some (.node 0 [("a", .node 0 [] [])] [])) =
      .ok (some (.node 0 [("a", .node 0 [] [])] []),
        [.fileModified ["a"], .fileRemoved ["a", "a"]]) ∧
    ([Event.fileModified ["a"], .fileRemoved ["a", "a"]] : List Event) ≠ [] :=
  ⟨rfl, by decide⟩

/-! ## The source subtree is never written (C10) -/

/-- Surgery along one path does not change resolution along a diverging
path. -/
theorem find_setSubtree_diverge : ∀ (dp sp : Path) (w t' : Tree),
    pathsDiverge sp dp = true → (setSubtree w dp t').find sp = w.find sp := by
  intro dp
  induction dp with
  | nil =>
    intro sp w t' h
    cases sp <;> simp [pathsDiverge] at h
  | cons y ys ih =>
    intro sp w t' h
    cases sp with
    | nil => simp [pathsDiverge] at h
    | cons x xs =>
      obtain ⟨m, ds, fs⟩ := w
      by_cases hxy : x = y
      · subst hxy
        simp only [pathsDiverge, if_pos rfl] at h
        cases hl : lookupE ds x with
        | some sub =>
          simp only [setSubtree, hl]
          rw [find_cons_dir m fs xs (lookupE_updateE_self ds x _ sub hl),
            find_cons_dir m fs xs hl, ih xs sub t' h]
        | none => simp only [setSubtree, hl]
      · cases hl : lookupE ds y with
        | some sub =>
          simp only [setSubtree, hl]
          cases hx : lookupE ds x with
          | some subx =>
            rw [find_cons_dir m fs xs
              (by rw [lookupE_updateE_other ds y x _ hxy]; exact hx),
              find_cons_dir m fs xs hx]
          | none =>
            have hx' : lookupE (updateE ds y (setSubtree sub ys t')) x = none := by
              rw [lookupE_updateE_other ds y x _ hxy]
              exact hx
            cases xs with
            | nil => rw [find_singleton_file m fs hx', find_singleton_file m fs hx]
            | cons z zs => rw [find_cons_miss m fs zs hx', find_cons_miss m fs zs hx]
        | none => simp only [setSubtree, hl]

/-- Claim C10: a pass never creates, modifies or deletes anything under
the source root.  In the single-world view, with the two root paths naming
disjoint regions (neither a prefix of the other — the configuration the
claim's phase-by-phase reading presumes), the subtree at the source root
after a successful pass is exactly the subtree before it: every mutating
call of Phase A and Phase B targets a destination-prefixed path. -/
theorem C10_source_subtree_unchanged (w w' : Tree) (sp dp : Path) (ev : List Event)
    (hdiv : pathsDiverge sp dp = true)
    (hrun : worldSync w sp dp = some (w', ev)) :
    subtreeAt w' sp = subtreeAt w sp := by
  unfold worldSync at hrun
  cases hs : sync (subtreeAt w sp) (subtreeAt w dp) with
  | error e => rw [hs] at hrun; simp at hrun
  | ok pr =>
    obtain ⟨d', ev'⟩ := pr
    rw [hs] at hrun
    cases d' with
    | none =>
      simp only [Option.some.injEq, Prod.mk.injEq] at hrun
      obtain ⟨h1, h2⟩ := hrun
      rw [← h1]
    | some dtree =>
      simp only [Option.some.injEq, Prod.mk.injEq] at hrun
      obtain ⟨h1, h2⟩ := hrun
      subst h1
      unfold subtreeAt
      rw [find_setSubtree_diverge dp sp w dtree hdiv]

/-- Witness for C10: a world with sibling roots `src` and `dst`; the pass
copies `f` into `dst` and the subtree at `src` is untouched. -/
theorem C10_source_subtree_unchanged_witness :
    subtreeAt (Tree.node 0 [("src", .node 1 [] [("f", ⟨5, 1⟩)]),
        ("dst", .node 2 [] [("f", ⟨5, 1⟩)])] []) ["src"] =
      subtreeAt (Tree.node 0 [("src", .node 1 [] [("f", ⟨5, 1⟩)]),
        ("dst", .node 2 [] [])] []) ["src"] :=
  C10_source_subtree_unchanged
    (Tree.node 0 [("src", .node 1 [] [("f", ⟨5, 1⟩)]), ("dst", .node 2 [] [])] [])
    (Tree.node 0 [("src", .node 1 [] [("f", ⟨5, 1⟩)]),
      ("dst", .node 2 [] [("f", ⟨5, 1⟩)])] [])
    ["src"] ["dst"] [.fileCreated ["f"]] rfl rfl

/-! ## Phase B never removes entries with a source counterpart (C8) -/

/-- A resolvable appended path forces the prefix to resolve. -/
theorem fsExists_prefix_of_append (s : Tree) (q r : Path)
    (h : (s.find (q ++ r)).isSome = true) : (s.find q).isSome = true := by
  rw [find_append q s r] at h
  cases hq : s.find q with
  | some e => simp
  | none =>
    rw [hq] at h
    cases r <;> simp [followE] at h

/-- Filtering a listing by a predicate on names keeps lookups of names the
predicate accepts. -/
theorem lookupE_filter_fst {α : Type} (q : String → Bool) (xs : List (String × α))
    (x : String) (hq : q x = true) :
    lookupE (xs.filter fun e => q e.1) x = lookupE xs x := by
  induction xs with
  | nil => simp
  | cons hd tl ih =>
    obtain ⟨a, b⟩ := hd
    by_cases ha : a = x
    · subst ha
      simp [List.filter_cons, hq]
    · cases hqa : q a <;> simp [List.filter_cons, hqa, ha, ih]

/-- A kept subdirectory survives `pruneChildren` under its name, pruned
recursively. -/
theorem pruneChildren_lookup_some (src : Option Tree) (base : Path) :
    ∀ (ds : List (String × Tree)) (x : String) (sub : Tree),
    lookupE ds x = some sub → fsExists src (base ++ [x]) = true →
    lookupE (pruneChildren src base ds).1 x = some (pruneTree src (base ++ [x]) sub).1 := by
  intro ds
  induction ds with
  | nil => intro x sub h _; simp at h
  | cons hd tl ih =>
    intro x sub h hk
    obtain ⟨d, subd⟩ := hd
    by_cases hdx : d = x
    · subst hdx
      rw [lookupE_cons, if_pos rfl] at h
      injection h with h
      subst h
      simp [pruneChildren, hk]
    · simp only [lookupE_cons, if_neg hdx] at h
      by_cases hkd : fsExists src (base ++ [d]) = true
      · simp [pruneChildren, hkd, hdx, ih x sub h hk]
      · simp only [Bool.not_eq_true] at hkd
        simp [pruneChildren, hkd, ih x sub h hk]

/-- A name absent from a listing is absent from the pruned listing. -/
theorem pruneChildren_lookup_none (src : Option Tree) (base : Path) :
    ∀ (ds : List (String × Tree)) (x : String),
    lookupE ds x = none → lookupE (pruneChildren src base ds).1 x = none := by
  intro ds
  induction ds with
  | nil => intro x _; simp [pruneChildren]
  | cons hd tl ih =>
    intro x h
    obtain ⟨d, subd⟩ := hd
    by_cases hdx : d = x
    · subst hdx
      simp at h
    · simp only [lookupE_cons, if_neg hdx] at h
      by_cases hkd : fsExists src (base ++ [d]) = true
      · simp [pruneChildren, hkd, hdx, ih x h]
      · simp only [Bool.not_eq_true] at hkd
        simp [pruneChildren, hkd, ih x h]

/-- Phase B keeps every destination file that has a source counterpart,
with its data untouched. -/
theorem pruneTree_preserves_file : ∀ (p : Path) (t : Tree) (src : Option Tree)
    (base : Path) (fd : FileData),
    t.find p = some (.file fd) → fsExists src (base ++ p) = true →
    (pruneTree src base t).1.find p = some (.file fd) := by
  intro p
  induction p with
  | nil =>
    intro t src base fd h _
    simp at h
  | cons x xs ih =>
    intro t src base fd h hk
    obtain ⟨m, ds, fs⟩ := t
    have hsrc : fsExists src (base ++ [x]) = true := by
      cases src with
      | none => simp at hk
      | some s =>
        have : ((base ++ [x]) ++ xs) = base ++ x :: xs := by simp
        refine fsExists_prefix_of_append s (base ++ [x]) xs ?_
        rw [this]
        exact hk
    cases hl : lookupE ds x with
    | some sub =>
      rw [find_cons_dir m fs xs hl] at h
      have hrec := ih sub src (base ++ [x]) fd h
        (by rw [show (base ++ [x]) ++ xs = base ++ x :: xs by simp]; exact hk)
      show ((pruneTree src base (.node m ds fs)).1.find (x :: xs)) = _
      simp only [pruneTree]
      rw [find_cons_dir _ _ xs (pruneChildren_lookup_some src base ds x sub hl hsrc)]
      exact hrec
    | none =>
      cases xs with
      | nil =>
        rw [find_singleton_file m fs hl] at h
        cases hf : lookupE fs x with
        | none => rw [hf] at h; simp at h
        | some fd2 =>
          rw [hf] at h
          simp at h
          subst h
          simp only [pruneTree]
          rw [find_singleton_file _ _ (pruneChildren_lookup_none src base ds x hl),
            lookupE_filter_fst (fun nm => fsExists src (base ++ [nm])) fs x hsrc, hf]
          rfl
      | cons z zs =>
        rw [find_cons_miss m fs zs hl] at h
        cases h

/-- Phase B keeps every destination directory that has a source
counterpart (its subtree pruned recursively). -/
theorem pruneTree_preserves_dir : ∀ (p : Path) (t : Tree) (src : Option Tree)
    (base : Path) (st : Tree),
    t.find p = some (.dir st) → fsExists src (base ++ p) = true →
    ∃ st', (pruneTree src base t).1.find p = some (.dir st') := by
  intro p
  induction p with
  | nil =>
    intro t src base st h _
    exact ⟨(pruneTree src base t).1, by simp⟩
  | cons x xs ih =>
    intro t src base st h hk
    obtain ⟨m, ds, fs⟩ := t
    have hsrc : fsExists src (base ++ [x]) = true := by
      cases src with
      | none => simp at hk
      | some s =>
        refine fsExists_prefix_of_append s (base ++ [x]) xs ?_
        rw [show (base ++ [x]) ++ xs = base ++ x :: xs by simp]
        exact hk
    cases hl : lookupE ds x with
    | some sub =>
      rw [find_cons_dir m fs xs hl] at h
      obtain ⟨st', hst'⟩ := ih sub src (base ++ [x]) st h
        (by rw [show (base ++ [x]) ++ xs = base ++ x :: xs by simp]; exact hk)
      refine ⟨st', ?_⟩
      simp only [pruneTree]
      rw [find_cons_dir _ _ xs (pruneChildren_lookup_some src base ds x sub hl hsrc)]
      exact hst'
    | none =>
      cases xs with
      | nil =>
        rw [find_singleton_file m fs hl] at h
        cases hf : lookupE fs x with
        | none => rw [hf] at h; simp at h
        | some fd2 => rw [hf] at h; simp at h
      | cons z zs =>
        rw [find_cons_miss m fs zs hl] at h
        cases h

/-- Claim C8: within a pass, Phase A runs to completion first (`sync`
feeds Phase A's resulting destination `d1` into Phase B), and Phase B
never removes a destination entry that has a source counterpart at the
same relative path: any path present in `d1` and present in the source is
still present in the final destination.  In particular a file created by
Phase A from the source is never deleted later in the same pass. -/
theorem C8_phaseA_before_prune_preserves (src dest d1 : Option Tree) (evA : List Event)
    (p : Path) (hA : phaseARoot src dest = .ok (d1, evA))
    (hs : fsExists src p = true) (hd : fsExists d1 p = true) :
    ∃ d2 evB, sync src dest = .ok (d2, evA ++ evB) ∧ fsExists d2 p = true := by
  cases d1 with
  | none => simp at hd
  | some t =>
    refine ⟨(pruneRoot src (some t)).1, (pruneRoot src (some t)).2, ?_, ?_⟩
    · unfold sync
      rw [hA]
      rfl
    · simp only [fsExists_some, Option.isSome_iff_exists] at hd
      obtain ⟨e, he⟩ := hd
      have hsp : fsExists src ([] ++ p) = true := by simpa using hs
      cases e with
      | dir st =>
        obtain ⟨st', hst'⟩ := pruneTree_preserves_dir p t src [] st he hsp
        simp [pruneRoot, hst']
      | file fd =>
        have := pruneTree_preserves_file p t src [] fd he hsp
        simp [pruneRoot, this]

/-- Witness for C8: source and Phase A output both contain `f`; after the
full pass `f` is still present. -/
theorem C8_phaseA_before_prune_preserves_witness :
    ∃ d2 evB, sync (some (Tree.node 0 [] [("f", ⟨3, 1⟩)])) (some (.node 0 [] [])) =
      .ok (d2, [Event.fileCreated ["f"]] ++ evB) ∧ fsExists d2 ["f"] = true :=
  C8_phaseA_before_prune_preserves (some (.node 0 [] [("f", ⟨3, 1⟩)]))
    (some (.node 0 [] [])) (some (.node 0 [] [("f", ⟨3, 1⟩)]))
    [.fileCreated ["f"]] ["f"] rfl rfl rfl

/-! ## Name lists: membership and freshness -/

theorem memB_append (l1 l2 : List String) (x : String) :
    memB (l1 ++ l2) x = (memB l1 x || memB l2 x) := by
  induction l1 with
  | nil => simp [memB]
  | cons y ys ih =>
    by_cases hy : y = x <;> simp [memB, hy, ih]

theorem memB_of_mem {l : List String} {x : String} (h : x ∈ l) : memB l x = true := by
  induction l with
  | nil => simp at h
  | cons y ys ih =>
    rcases List.mem_cons.mp h with h1 | h2
    · simp [memB, h1]
    · by_cases hy : y = x <;> simp [memB, hy, ih h2]

theorem lookupE_none_of_not_memB {α : Type} {xs : List (String × α)} {x : String}
    (h : memB (xs.map Prod.fst) x = false) : lookupE xs x = none := by
  induction xs with
  | nil => rfl
  | cons hd tl ih =>
    obtain ⟨a, b⟩ := hd
    by_cases ha : a = x
    · simp [memB, ha] at h
    · simp only [List.map_cons, memB, if_neg ha] at h
      simp [ha, ih h]

theorem freshKeys_append_left {l1 l2 : List String} (h : freshKeys (l1 ++ l2) = true) :
    freshKeys l1 = true := by
  induction l1 with
  | nil => rfl
  | cons y ys ih =>
    simp only [List.cons_append, freshKeys, List.append_eq, Bool.and_eq_true,
      Bool.not_eq_true'] at h
    obtain ⟨h1, h2⟩ := h
    rw [memB_append] at h1
    simp only [Bool.or_eq_false_iff] at h1
    simp only [freshKeys, Bool.and_eq_true, Bool.not_eq_true']
    exact ⟨h1.1, ih h2⟩

theorem freshKeys_append_right {l1 l2 : List String} (h : freshKeys (l1 ++ l2) = true) :
    freshKeys l2 = true := by
  induction l1 with
  | nil => exact h
  | cons y ys ih =>
    simp only [List.cons_append, freshKeys, Bool.and_eq_true] at h
    exact ih h.2

theorem freshKeys_cross {l1 l2 : List String} {x : String}
    (h : freshKeys (l1 ++ l2) = true) (hx : memB l1 x = true) : memB l2 x = false := by
  induction l1 with
  | nil => simp [memB] at hx
  | cons y ys ih =>
    simp only [List.cons_append, freshKeys, List.append_eq, Bool.and_eq_true,
      Bool.not_eq_true'] at h
    obtain ⟨h1, h2⟩ := h
    rw [memB_append] at h1
    simp only [Bool.or_eq_false_iff] at h1
    by_cases hy : y = x
    · subst hy
      exact h1.2
    · simp only [memB, if_neg hy] at hx
      exact ih h2 hx

theorem lookupE_some_of_mem_fresh {α : Type} {xs : List (String × α)} {d : String} {v : α}
    (hf : freshKeys (xs.map Prod.fst) = true) (hm : (d, v) ∈ xs) :
    lookupE xs d = some v := by
  induction xs with
  | nil => simp at hm
  | cons hd tl ih =>
    obtain ⟨a, b⟩ := hd
    simp only [List.map_cons, freshKeys, Bool.and_eq_true, Bool.not_eq_true'] at hf
    obtain ⟨hf1, hf2⟩ := hf
    rcases List.mem_cons.mp hm with h1 | h2
    · cases h1
      simp
    · by_cases ha : a = d
      · subst ha
        rw [memB_of_mem (List.mem_map_of_mem Prod.fst h2)] at hf1
        cases hf1
      · simp [ha, ih hf2 h2]

theorem lookupE_isSome_of_mem {α : Type} {xs : List (String × α)} {d : String} {v : α}
    (hm : (d, v) ∈ xs) : (lookupE xs d).isSome = true := by
  induction xs with
  | nil => simp at hm
  | cons hd tl ih =>
    obtain ⟨a, b⟩ := hd
    rcases List.mem_cons.mp hm with h1 | h2
    · cases h1
      simp
    · by_cases ha : a = d <;> simp [ha, ih h2]

/-! ## Listing update lemmas -/

theorem updateE_self_of_lookupE {α : Type} {xs : List (String × α)} {k : String} {v : α}
    (h : lookupE xs k = some v) : updateE xs k v = xs := by
  induction xs with
  | nil => rfl
  | cons hd tl ih =>
    obtain ⟨a, b⟩ := hd
    by_cases ha : a = k
    · subst ha
      simp only [lookupE_cons, if_pos rfl] at h
      injection h with h
      subst h
      simp [updateE]
    · simp only [lookupE_cons, if_neg ha] at h
      simp [updateE, ha, ih h]

theorem updateE_updateE {α : Type} (xs : List (String × α)) (k : String) (a b : α) :
    updateE (updateE xs k a) k b = updateE xs k b := by
  induction xs with
  | nil => rfl
  | cons hd tl ih =>
    obtain ⟨x, c⟩ := hd
    by_cases hx : x = k <;> simp [updateE, hx, ih]

theorem updateE_append_of_none {α : Type} {pre : List (String × α)}
    (l : List (String × α)) {k : String} (v : α) (h : lookupE pre k = none) :
    updateE (pre ++ l) k v = pre ++ updateE l k v := by
  induction pre with
  | nil => rfl
  | cons hd tl ih =>
    obtain ⟨a, b⟩ := hd
    by_cases ha : a = k
    · simp [ha] at h
    · simp only [lookupE_cons, if_neg ha] at h
      simp [updateE, ha, ih h]

theorem setE_append_of_none {α : Type} {fs : List (String × α)} {f : String} (fd : α)
    (h : lookupE fs f = none) : setE fs f fd = fs ++ [(f, fd)] := by
  induction fs with
  | nil => rfl
  | cons hd tl ih =>
    obtain ⟨a, b⟩ := hd
    by_cases ha : a = f
    · simp [ha] at h
    · simp only [lookupE_cons, if_neg ha] at h
      simp [setE, ha, ih h]

/-! ## Surgery lemmas for `setSubtree` -/

@[simp] theorem setSubtree_nil (t t' : Tree) : setSubtree t [] t' = t' := by
  obtain ⟨m, ds, fs⟩ := t
  rfl

/-- A path resolving to a directory forces the head lookup to a
subdirectory carrying the rest of the resolution. -/
theorem find_dir_cons {m : Nat} {ds : List (String × Tree)} {fs : List (String × FileData)}
    {x : String} {xs : Path} {t0 : Tree}
    (h : (Tree.node m ds fs).find (x :: xs) = some (.dir t0)) :
    ∃ sub, lookupE ds x = some sub ∧ sub.find xs = some (.dir t0) := by
  cases hl : lookupE ds x with
  | some sub => exact ⟨sub, rfl, by rw [find_cons_dir m fs xs hl] at h; exact h⟩
  | none =>
    exfalso
    cases xs with
    | nil =>
      rw [find_singleton_file m fs hl] at h
      cases hf : lookupE fs x with
      | none => rw [hf] at h; cases h
      | some fd => rw [hf] at h; simp at h
    | cons z zs =>
      rw [find_cons_miss m fs zs hl] at h
      cases h

theorem find_setSubtree_append : ∀ (q : Path) (dst t0 t1 : Tree) (r : Path),
    dst.find q = some (.dir t0) → (setSubtree dst q t1).find (q ++ r) = t1.find r := by
  intro q
  induction q with
  | nil =>
    intro dst t0 t1 r _
    simp
  | cons x q' ih =>
    intro dst t0 t1 r h
    obtain ⟨m, ds, fs⟩ := dst
    obtain ⟨sub, hl, hsub⟩ := find_dir_cons h
    simp only [setSubtree, hl, List.cons_append]
    rw [find_cons_dir m fs _ (lookupE_updateE_self ds x _ sub hl)]
    exact ih sub t0 t1 r hsub

theorem setSubtree_self : ∀ (q : Path) (dst t0 : Tree),
    dst.find q = some (.dir t0) → setSubtree dst q t0 = dst := by
  intro q
  induction q with
  | nil =>
    intro dst t0 h
    simp only [find_nil, Option.some.injEq, Entry.dir.injEq] at h
    rw [setSubtree_nil, h]
  | cons x q' ih =>
    intro dst t0 h
    obtain ⟨m, ds, fs⟩ := dst
    obtain ⟨sub, hl, hsub⟩ := find_dir_cons h
    simp only [setSubtree, hl]
    rw [ih sub t0 hsub, updateE_self_of_lookupE hl]

theorem setSubtree_setSubtree : ∀ (q : Path) (dst t0 a b : Tree),
    dst.find q = some (.dir t0) →
    setSubtree (setSubtree dst q a) q b = setSubtree dst q b := by
  intro q
  induction q with
  | nil =>
    intro dst t0 a b _
    simp
  | cons x q' ih =>
    intro dst t0 a b h
    obtain ⟨m, ds, fs⟩ := dst
    obtain ⟨sub, hl, hsub⟩ := find_dir_cons h
    simp only [setSubtree, hl, lookupE_updateE_self ds x _ sub hl]
    rw [ih sub t0 a b hsub, updateE_updateE]

theorem setSubtree_append : ∀ (q : Path) (dst t0 : Tree) (r : Path) (u : Tree),
    dst.find q = some (.dir t0) →
    setSubtree dst (q ++ r) u = setSubtree dst q (setSubtree t0 r u) := by
  intro q
  induction q with
  | nil =>
    intro dst t0 r u h
    simp only [find_nil, Option.some.injEq, Entry.dir.injEq] at h
    rw [List.nil_append, setSubtree_nil, h]
  | cons x q' ih =>
    intro dst t0 r u h
    obtain ⟨m, ds, fs⟩ := dst
    obtain ⟨sub, hl, hsub⟩ := find_dir_cons h
    simp only [List.cons_append, setSubtree, hl, List.append_eq]
    rw [ih sub t0 r u hsub]

/-! ## Lifting global-path operations to the subtree they act in -/

theorem mkdirs_lift : ∀ (q : Path) (dst t0 : Tree) (r : Path),
    dst.find q = some (.dir t0) →
    dst.mkdirs (q ++ r) = (t0.mkdirs r).map (setSubtree dst q ·) := by
  intro q
  induction q with
  | nil =>
    intro dst t0 r h
    simp only [find_nil, Option.some.injEq, Entry.dir.injEq] at h
    subst h
    rw [List.nil_append]
    cases hm : dst.mkdirs r <;> simp [Except.map]
  | cons x q' ih =>
    intro dst t0 r h
    obtain ⟨m, ds, fs⟩ := dst
    obtain ⟨sub, hl, hsub⟩ := find_dir_cons h
    simp only [List.cons_append]
    rw [mkdirs_cons_dir m fs _ hl, ih sub t0 r hsub]
    cases hm : t0.mkdirs r <;> simp [Except.map, setSubtree, hl]

theorem copy2_lift : ∀ (q : Path) (dst t0 : Tree) (r : Path) (fd : FileData),
    r ≠ [] → dst.find q = some (.dir t0) →
    dst.copy2 (q ++ r) fd = (t0.copy2 r fd).map (setSubtree dst q ·) := by
  intro q
  induction q with
  | nil =>
    intro dst t0 r fd _ h
    simp only [find_nil, Option.some.injEq, Entry.dir.injEq] at h
    subst h
    rw [List.nil_append]
    cases hm : dst.copy2 r fd <;> simp [Except.map]
  | cons x q' ih =>
    intro dst t0 r fd hr h
    obtain ⟨m, ds, fs⟩ := dst
    obtain ⟨sub, hl, hsub⟩ := find_dir_cons h
    have hne : q' ++ r ≠ [] := by
      cases r with
      | nil => exact absurd rfl hr
      | cons y ys => simp
    simp only [List.cons_append]
    rw [copy2_cons_descend m fs _ fd hne hl, ih sub t0 r fd hr hsub]
    cases hm : t0.copy2 r fd <;> simp [Except.map, setSubtree, hl]

/-! ## Lemmas about `strip` and well-formedness -/

theorem stripRoot_zero (S : Tree) : stripRoot S 0 = S.strip := by
  obtain ⟨m, ds, fs⟩ := S
  rfl

theorem stripList_keys : ∀ (ds : List (String × Tree)),
    (stripList ds).map Prod.fst = ds.map Prod.fst := by
  intro ds
  induction ds with
  | nil => rfl
  | cons hd tl ih =>
    obtain ⟨d, sub⟩ := hd
    simp [stripList, ih]

theorem lookupE_stripList : ∀ (ds : List (String × Tree)) (x : String),
    lookupE (stripList ds) x = (lookupE ds x).map Tree.strip := by
  intro ds x
  induction ds with
  | nil => rfl
  | cons hd tl ih =>
    obtain ⟨d, sub⟩ := hd
    by_cases hd : d = x <;> simp [stripList, hd, ih]

theorem strip_find : ∀ (p : Path) (S : Tree),
    S.strip.find p = (S.find p).map entryStrip := by
  intro p
  induction p with
  | nil =>
    intro S
    simp [entryStrip]
  | cons x xs ih =>
    intro S
    obtain ⟨m, ds, fs⟩ := S
    show (Tree.node 0 (stripList ds) fs).find (x :: xs) = _
    cases hl : lookupE ds x with
    | some sub =>
      rw [find_cons_dir 0 fs xs (by rw [lookupE_stripList, hl]; rfl),
        find_cons_dir m fs xs hl]
      exact ih sub
    | none =>
      have hl' : lookupE (stripList ds) x = none := by rw [lookupE_stripList, hl]; rfl
      cases xs with
      | nil =>
        rw [find_singleton_file 0 fs hl', find_singleton_file m fs hl]
        cases hf : lookupE fs x <;> simp [entryStrip]
      | cons z zs =>
        rw [find_cons_miss 0 fs zs hl', find_cons_miss m fs zs hl]
        rfl

mutual

theorem wfB_strip : ∀ (S : Tree), S.strip.wfB = S.wfB := by
  intro S
  obtain ⟨m, ds, fs⟩ := S
  show (Tree.node 0 (stripList ds) fs).wfB = _
  simp only [Tree.wfB, stripList_keys, wfList_strip ds]

theorem wfList_strip : ∀ (ds : List (String × Tree)), wfList (stripList ds) = wfList ds := by
  intro ds
  match ds with
  | [] => rfl
  | (d, sub) :: rest => simp [stripList, wfList, wfB_strip sub, wfList_strip rest]

end

/-- Access the components of node well-formedness. -/
theorem wfB_node {m : Nat} {ds : List (String × Tree)} {fs : List (String × FileData)}
    (h : (Tree.node m ds fs).wfB = true) :
    freshKeys (ds.map Prod.fst ++ fs.map Prod.fst) = true ∧ wfList ds = true := by
  simpa [Tree.wfB, Bool.and_eq_true] using h

theorem wfList_cons {d : String} {sub : Tree} {rest : List (String × Tree)}
    (h : wfList ((d, sub) :: rest) = true) : sub.wfB = true ∧ wfList rest = true := by
  simpa [wfList, Bool.and_eq_true] using h

theorem freshKeys_cons {x : String} {xs : List String} (h : freshKeys (x :: xs) = true) :
    memB xs x = false ∧ freshKeys xs = true := by
  simpa [freshKeys, Bool.and_eq_true, Bool.not_eq_true'] using h

/-! ## Phase A over an initially empty destination directory -/

theorem dirPass_build : ∀ (ds : List (String × Tree)) (dst : Tree) (q : Path) (mq : Nat)
    (ds0 : List (String × Tree)) (fs0 : List (String × FileData)),
    (∀ de ∈ ds, lookupE ds0 de.1 = none ∧ lookupE fs0 de.1 = none) →
    freshKeys (ds.map Prod.fst) = true →
    dst.find q = some (.dir (.node mq ds0 fs0)) →
    dirPass (some dst) q ds = .ok
      (some (setSubtree dst q (.node mq (ds0 ++ ds.map fun de => (de.1, Tree.node 0 [] [])) fs0)),
        ds.map fun de => Event.dirCreated (q ++ [de.1])) := by
  intro ds
  induction ds with
  | nil =>
    intro dst q mq ds0 fs0 _ _ hfind
    simp only [List.map_nil, List.append_nil]
    rw [dirPass, setSubtree_self q dst _ hfind]
  | cons hd rest ih =>
    intro dst q mq ds0 fs0 hfresh hkeys hfind
    obtain ⟨d, subd⟩ := hd
    obtain ⟨hd0, hf0⟩ := hfresh (d, subd) (List.mem_cons_self _ _)
    obtain ⟨hmem, hkeys'⟩ := freshKeys_cons (by simpa using hkeys)
    -- the destination path q ++ [d] does not exist yet
    have hex : fsExists (some dst) (q ++ [d]) = false := by
      simp only [fsExists_some, find_append q dst [d], hfind, followE]
      rw [find_singleton_file mq fs0 hd0, hf0]
      rfl
    -- os.makedirs creates exactly the one missing directory
    have hmk : mkdirsRoot (some dst) (q ++ [d]) =
        .ok (some (setSubtree dst q (.node mq (ds0 ++ [(d, .node 0 [] [])]) fs0))) := by
      show (dst.mkdirs (q ++ [d])).map some = _
      rw [mkdirs_lift q dst _ [d] hfind, mkdirs_cons_fresh mq [] hd0 hf0]
      rfl
    have hstep : dirStep (some dst) q d =
        .ok (some (setSubtree dst q (.node mq (ds0 ++ [(d, .node 0 [] [])]) fs0)),
          [.dirCreated (q ++ [d])]) := by
      rw [dirStep, hex]
      simp only [Bool.false_eq_true, if_false]
      rw [hmk]
      rfl
    -- the recursive call on the grown listing
    have hfind' : (setSubtree dst q (.node mq (ds0 ++ [(d, .node 0 [] [])]) fs0)).find q =
        some (.dir (.node mq (ds0 ++ [(d, .node 0 [] [])]) fs0)) := by
      have := find_setSubtree_append q dst _ (.node mq (ds0 ++ [(d, .node 0 [] [])]) fs0) [] hfind
      simpa using this
    have hfresh' : ∀ de ∈ rest, lookupE (ds0 ++ [(d, Tree.node 0 [] [])]) de.1 = none ∧
        lookupE fs0 de.1 = none := by
      intro de hde
      obtain ⟨h1, h2⟩ := hfresh de (List.mem_cons_of_mem _ hde)
      refine ⟨?_, h2⟩
      rw [lookupE_append_right _ h1]
      have : ¬ d = de.1 := by
        intro hcontra
        rw [hcontra] at hmem
        rw [memB_of_mem (List.mem_map_of_mem Prod.fst hde)] at hmem
        cases hmem
      simp [this]
    have hrec := ih (setSubtree dst q (.node mq (ds0 ++ [(d, .node 0 [] [])]) fs0)) q mq
      (ds0 ++ [(d, .node 0 [] [])]) fs0 hfresh' hkeys' hfind'
    rw [setSubtree_setSubtree q dst _ _ _ hfind] at hrec
    show dirPass (some dst) q ((d, subd) :: rest) = _
    rw [dirPass, hstep]
    simp only [bind, Except.bind]
    rw [hrec]
    simp [List.append_assoc]

theorem filePass_build : ∀ (fs : List (String × FileData)) (dst : Tree) (q : Path) (mq : Nat)
    (ds1 : List (String × Tree)) (fs0 : List (String × FileData)),
    (∀ fe ∈ fs, lookupE ds1 fe.1 = none ∧ lookupE fs0 fe.1 = none) →
    freshKeys (fs.map Prod.fst) = true →
    dst.find q = some (.dir (.node mq ds1 fs0)) →
    filePass (some dst) q fs = .ok
      (some (setSubtree dst q (.node mq ds1 (fs0 ++ fs))),
        fs.map fun fe => Event.fileCreated (q ++ [fe.1])) := by
  intro fs
  induction fs with
  | nil =>
    intro dst q mq ds1 fs0 _ _ hfind
    simp only [List.map_nil, List.append_nil]
    rw [filePass, setSubtree_self q dst _ hfind]
  | cons hd rest ih =>
    intro dst q mq ds1 fs0 hfresh hkeys hfind
    obtain ⟨f, fd⟩ := hd
    obtain ⟨hd1, hf0⟩ := hfresh (f, fd) (List.mem_cons_self _ _)
    obtain ⟨hmem, hkeys'⟩ := freshKeys_cons (by simpa using hkeys)
    have hex : fsExists (some dst) (q ++ [f]) = false := by
      simp only [fsExists_some, find_append q dst [f], hfind, followE]
      rw [find_singleton_file mq fs0 hd1, hf0]
      rfl
    have hcp : copy2Root (some dst) (q ++ [f]) fd =
        .ok (some (setSubtree dst q (.node mq ds1 (fs0 ++ [(f, fd)])))) := by
      show (dst.copy2 (q ++ [f]) fd).map some = _
      rw [copy2_lift q dst _ [f] fd (by simp) hfind, copy2_single_flat mq fs0 fd hd1,
        setE_append_of_none fd hf0]
      rfl
    have hstep : fileStep (some dst) q f fd =
        .ok (some (setSubtree dst q (.node mq ds1 (fs0 ++ [(f, fd)]))),
          [.fileCreated (q ++ [f])]) := by
      rw [fileStep, hex]
      simp only [if_pos rfl]
      rw [hcp]
      rfl
    have hfind' : (setSubtree dst q (.node mq ds1 (fs0 ++ [(f, fd)]))).find q =
        some (.dir (.node mq ds1 (fs0 ++ [(f, fd)]))) := by
      have := find_setSubtree_append q dst _ (.node mq ds1 (fs0 ++ [(f, fd)])) [] hfind
      simpa using this
    have hfresh' : ∀ fe ∈ rest, lookupE ds1 fe.1 = none ∧
        lookupE (fs0 ++ [(f, fd)]) fe.1 = none := by
      intro fe hfe
      obtain ⟨h1, h2⟩ := hfresh fe (List.mem_cons_of_mem _ hfe)
      refine ⟨h1, ?_⟩
      rw [lookupE_append_right _ h2]
      have : ¬ f = fe.1 := by
        intro hcontra
        rw [hcontra] at hmem
        rw [memB_of_mem (List.mem_map_of_mem Prod.fst hfe)] at hmem
        cases hmem
      simp [this]
    have hrec := ih (setSubtree dst q (.node mq ds1 (fs0 ++ [(f, fd)]))) q mq
      ds1 (fs0 ++ [(f, fd)]) hfresh' hkeys' hfind'
    rw [setSubtree_setSubtree q dst _ _ _ hfind] at hrec
    show filePass (some dst) q ((f, fd) :: rest) = _
    rw [filePass, hstep]
    simp only [bind, Except.bind]
    rw [hrec]
    simp [List.append_assoc]

theorem exceptBind_ok {α β : Type} (a : α) (f : α → Except SyncError β) :
    (Except.ok a : Except SyncError α) >>= f = f a := rfl

theorem lookupE_mapEmpty (ds : List (String × Tree)) (x : String) :
    lookupE (ds.map fun de => (de.1, Tree.node 0 [] [])) x =
      (lookupE ds x).map fun _ => Tree.node 0 [] [] := by
  induction ds with
  | nil => rfl
  | cons hd tl ih =>
    obtain ⟨a, b⟩ := hd
    by_cases ha : a = x <;> simp [ha, ih]

mutual

/-- Phase A drops a copy of the source subtree, with fresh directory
timestamps, into an empty destination directory: the walk at source
subtree `S`, with the destination holding an empty directory (timestamp
`mq`) at the same relative path `q`, succeeds and replaces that directory
with `stripRoot S mq`. -/
theorem phaseA_build : ∀ (S : Tree) (dst : Tree) (q : Path) (mq : Nat),
    S.wfB = true → dst.find q = some (.dir (.node mq [] [])) →
    ∃ ev, phaseA S q (some dst) = .ok (some (setSubtree dst q (stripRoot S mq)), ev) := by
  intro S dst q mq hwf hfind
  obtain ⟨mS, ds, fs⟩ := S
  obtain ⟨hkeys, hwl⟩ := wfB_node hwf
  have hkd : freshKeys (ds.map Prod.fst) = true := freshKeys_append_left hkeys
  have hkf : freshKeys (fs.map Prod.fst) = true := freshKeys_append_right hkeys
  -- the directory loop creates every subdirectory, empty
  have h1 := dirPass_build ds dst q mq [] [] (fun de _ => ⟨rfl, rfl⟩) hkd hfind
  rw [List.nil_append] at h1
  have hfind1 : (setSubtree dst q
      (.node mq (ds.map fun de => (de.1, Tree.node 0 [] [])) [])).find q =
      some (.dir (.node mq (ds.map fun de => (de.1, Tree.node 0 [] [])) [])) := by
    simpa using find_setSubtree_append q dst _
      (.node mq (ds.map fun de => (de.1, Tree.node 0 [] [])) []) [] hfind
  -- the file loop copies every file
  have hfr : ∀ fe ∈ fs, lookupE (ds.map fun de => (de.1, Tree.node 0 [] [])) fe.1 = none ∧
      lookupE ([] : List (String × FileData)) fe.1 = none := by
    intro fe hfe
    refine ⟨?_, rfl⟩
    rw [lookupE_mapEmpty]
    have hnone : lookupE ds fe.1 = none := by
      apply lookupE_none_of_not_memB
      by_cases hmem : memB (ds.map Prod.fst) fe.1 = true
      · have hfs : memB (fs.map Prod.fst) fe.1 = true :=
          memB_of_mem (List.mem_map_of_mem Prod.fst hfe)
        rw [freshKeys_cross hkeys hmem] at hfs
        cases hfs
      · simpa using hmem
    rw [hnone]
    rfl
  have h2 := filePass_build fs
    (setSubtree dst q (.node mq (ds.map fun de => (de.1, Tree.node 0 [] [])) []))
    q mq (ds.map fun de => (de.1, Tree.node 0 [] [])) [] hfr hkf hfind1
  rw [List.nil_append, setSubtree_setSubtree q dst _ _ _ hfind] at h2
  have hfind2 : (setSubtree dst q
      (.node mq (ds.map fun de => (de.1, Tree.node 0 [] [])) fs)).find q =
      some (.dir (.node mq (ds.map fun de => (de.1, Tree.node 0 [] [])) fs)) := by
    simpa using find_setSubtree_append q dst _
      (.node mq (ds.map fun de => (de.1, Tree.node 0 [] [])) fs) [] hfind
  -- the walk descends into the created children
  obtain ⟨ev3, h3⟩ := phaseAChildren_build ds
    (setSubtree dst q (.node mq (ds.map fun de => (de.1, Tree.node 0 [] [])) fs))
    q mq [] fs hwl hkd (fun de _ => rfl) (by simpa using hfind2)
  rw [List.nil_append, setSubtree_setSubtree q dst _ _ _ hfind] at h3
  refine ⟨(ds.map fun de => Event.dirCreated (q ++ [de.1])) ++
    ((fs.map fun fe => Event.fileCreated (q ++ [fe.1])) ++ ev3), ?_⟩
  show phaseA (.node mS ds fs) q (some dst) = _
  rw [phaseA]
  simp only [h1, exceptBind_ok]
  simp only [h2, exceptBind_ok]
  simp only [h3, exceptBind_ok]
  simp [stripRoot, List.append_assoc]

/-- Phase A walk descent over children whose destination directories were
just created empty: the walk builds each child subtree in listing
order. -/
theorem phaseAChildren_build : ∀ (ds : List (String × Tree)) (dst : Tree) (q : Path)
    (mq : Nat) (pre : List (String × Tree)) (fs1 : List (String × FileData)),
    wfList ds = true → freshKeys (ds.map Prod.fst) = true →
    (∀ de ∈ ds, lookupE pre de.1 = none) →
    dst.find q = some (.dir (.node mq
      (pre ++ ds.map fun de => (de.1, Tree.node 0 [] [])) fs1)) →
    ∃ ev, phaseAChildren ds q (some dst) = .ok
      (some (setSubtree dst q (.node mq (pre ++ stripList ds) fs1)), ev) := by
  intro ds dst q mq pre fs1 hwl hkeys hpre hfind
  match ds with
  | [] =>
    refine ⟨[], ?_⟩
    simp only [List.map_nil, List.append_nil] at hfind
    show phaseAChildren [] q (some dst) = _
    rw [phaseAChildren, stripList, List.append_nil, setSubtree_self q dst _ hfind]
  | (d, subd) :: rest =>
    obtain ⟨hwfd, hwl'⟩ := wfList_cons hwl
    obtain ⟨hmem, hkeys'⟩ := freshKeys_cons (by simpa using hkeys)
    have hpred : lookupE pre d = none := hpre (d, subd) (List.mem_cons_self _ _)
    simp only [List.map_cons] at hfind
    have hlookT : lookupE
        (pre ++ (d, Tree.node 0 [] []) :: rest.map fun de => (de.1, Tree.node 0 [] [])) d =
        some (Tree.node 0 [] []) := by
      rw [lookupE_append_right _ hpred]
      simp
    have hchild : dst.find (q ++ [d]) = some (.dir (.node 0 [] [])) := by
      rw [find_append q dst [d], hfind]
      show (Tree.node mq
        (pre ++ (d, Tree.node 0 [] []) :: rest.map fun de => (de.1, Tree.node 0 [] []))
        fs1).find [d] = _
      rw [find_cons_dir mq fs1 [] hlookT]
      rfl
    obtain ⟨ev1, h1⟩ := phaseA_build subd dst (q ++ [d]) 0 hwfd hchild
    rw [stripRoot_zero, setSubtree_append q dst _ [d] _ hfind] at h1
    have hsetT : setSubtree (Tree.node mq
        (pre ++ (d, Tree.node 0 [] []) :: rest.map fun de => (de.1, Tree.node 0 [] []))
        fs1) [d] subd.strip =
        .node mq (pre ++ (d, subd.strip) :: rest.map fun de => (de.1, Tree.node 0 [] []))
          fs1 := by
      simp only [setSubtree, hlookT]
      rw [updateE_append_of_none _ _ hpred]
      simp [updateE]
    rw [hsetT] at h1
    have hfind1 : (setSubtree dst q (.node mq
        (pre ++ (d, subd.strip) :: rest.map fun de => (de.1, Tree.node 0 [] []))
        fs1)).find q =
        some (.dir (.node mq
          ((pre ++ [(d, subd.strip)]) ++ rest.map fun de => (de.1, Tree.node 0 [] []))
          fs1)) := by
      have := find_setSubtree_append q dst _
        (.node mq (pre ++ (d, subd.strip) :: rest.map fun de => (de.1, Tree.node 0 [] []))
          fs1) [] hfind
      simpa using this
    have hpre' : ∀ de ∈ rest, lookupE (pre ++ [(d, subd.strip)]) de.1 = none := by
      intro de hde
      rw [lookupE_append_right _ (hpre de (List.mem_cons_of_mem _ hde))]
      have hne : ¬ d = de.1 := by
        intro hcontra
        rw [hcontra] at hmem
        rw [memB_of_mem (List.mem_map_of_mem Prod.fst hde)] at hmem
        cases hmem
      simp [hne]
    obtain ⟨ev2, h2⟩ := phaseAChildren_build rest
      (setSubtree dst q (.node mq
        (pre ++ (d, subd.strip) :: rest.map fun de => (de.1, Tree.node 0 [] [])) fs1))
      q mq (pre ++ [(d, subd.strip)]) fs1 hwl' hkeys' hpre' hfind1
    rw [setSubtree_setSubtree q dst _ _ _ hfind] at h2
    refine ⟨ev1 ++ ev2, ?_⟩
    show phaseAChildren ((d, subd) :: rest) q (some dst) = _
    rw [phaseAChildren]
    simp only [h1, exceptBind_ok]
    simp only [h2, exceptBind_ok]
    simp [stripList, List.append_assoc]

end

/-! ## Phase B is a no-op when every destination entry has a source counterpart -/

mutual

theorem pruneTree_id : ∀ (t : Tree) (src : Option Tree) (base : Path),
    t.wfB = true →
    (∀ (p : Path) (e : Entry), t.find p = some e → fsExists src (base ++ p) = true) →
    pruneTree src base t = (t, []) := by
  intro t src base hwf hcov
  obtain ⟨m, ds, fs⟩ := t
  obtain ⟨hkeys, hwl⟩ := wfB_node hwf
  have hkd : freshKeys (ds.map Prod.fst) = true := freshKeys_append_left hkeys
  have hfs : ∀ fe ∈ fs, fsExists src (base ++ [fe.1]) = true := by
    intro fe hfe
    obtain ⟨f, fd⟩ := fe
    cases hl : lookupE ds f with
    | some sub => exact hcov [f] (.dir sub) (by rw [find_cons_dir m fs [] hl]; simp)
    | none =>
      have hx : (lookupE fs f).isSome = true := lookupE_isSome_of_mem hfe
      obtain ⟨fd', hfd'⟩ := Option.isSome_iff_exists.mp hx
      exact hcov [f] (.file fd') (by rw [find_singleton_file m fs hl, hfd']; rfl)
  have hds : ∀ de ∈ ds, fsExists src (base ++ [de.1]) = true := by
    intro de hde
    obtain ⟨d, sub⟩ := de
    cases hl : lookupE ds d with
    | some sub' => exact hcov [d] (.dir sub') (by rw [find_cons_dir m fs [] hl]; simp)
    | none =>
      have hx : (lookupE ds d).isSome = true := lookupE_isSome_of_mem hde
      rw [hl] at hx
      cases hx
  have hchild : ∀ (d : String) (sub : Tree), (d, sub) ∈ ds → ∀ (p : Path) (e : Entry),
      sub.find p = some e → fsExists src (base ++ d :: p) = true := by
    intro d sub hm p e hp
    have hl : lookupE ds d = some sub := lookupE_some_of_mem_fresh hkd hm
    exact hcov (d :: p) e (by rw [find_cons_dir m fs p hl]; exact hp)
  have hrec := pruneChildren_id ds src base hwl hkd hchild
  have hevF : (fs.filter fun fe => !fsExists src (base ++ [fe.1])) = [] := by
    rw [List.filter_eq_nil_iff]
    intro a ha
    simp [hfs a ha]
  have hevD : (ds.filter fun de => !fsExists src (base ++ [de.1])) = [] := by
    rw [List.filter_eq_nil_iff]
    intro a ha
    simp [hds a ha]
  show pruneTree src base (.node m ds fs) = _
  simp only [pruneTree, hrec, hevF, hevD, List.filter_eq_self.mpr hfs]
  simp

theorem pruneChildren_id : ∀ (ds : List (String × Tree)) (src : Option Tree) (base : Path),
    wfList ds = true → freshKeys (ds.map Prod.fst) = true →
    (∀ (d : String) (sub : Tree), (d, sub) ∈ ds → ∀ (p : Path) (e : Entry),
      sub.find p = some e → fsExists src (base ++ d :: p) = true) →
    pruneChildren src base ds = (ds, []) := by
  intro ds src base hwl hkeys hchild
  match ds with
  | [] => rfl
  | (d, sub) :: rest =>
    obtain ⟨hwfd, hwl'⟩ := wfList_cons hwl
    obtain ⟨hmem, hkeys'⟩ := freshKeys_cons (by simpa using hkeys)
    have hk : fsExists src (base ++ [d]) = true :=
      hchild d sub (List.mem_cons_self _ _) [] (.dir sub) (by simp)
    have hsub : pruneTree src (base ++ [d]) sub = (sub, []) := by
      apply pruneTree_id sub src (base ++ [d]) hwfd
      intro p e hp
      have := hchild d sub (List.mem_cons_self _ _) p e hp
      simpa [List.append_assoc] using this
    have hrest := pruneChildren_id rest src base hwl' hkeys'
      (fun d' sub' hm => hchild d' sub' (List.mem_cons_of_mem _ hm))
    show pruneChildren src base ((d, sub) :: rest) = _
    simp only [pruneChildren, hk, if_true, hsub, hrest]
    simp

end

/-- Claim C1: one pass over any well-formed source tree `S` with an
initially empty destination directory succeeds and leaves the destination
tree equal to `S.strip`: identical to `S` in relative paths, entry kinds,
file contents and even file modification times; only directory timestamps
are replaced (by the fresh-creation timestamp).  The second conjunct
states that equality pathwise: every relative path resolves in the
destination exactly as in `S`, up to directory-timestamp erasure. -/
theorem C1_mirror (S : Tree) (h : S.wfB = true) :
    ∃ ev, sync (some S) (some (.node 0 [] [])) = .ok (some S.strip, ev) ∧
      ∀ p : Path, S.strip.find p = (S.find p).map entryStrip := by
  obtain ⟨evA, hA⟩ := phaseA_build S (.node 0 [] []) [] 0 h (by simp)
  rw [setSubtree_nil, stripRoot_zero] at hA
  have hwfs : S.strip.wfB = true := by rw [wfB_strip]; exact h
  have hid : pruneTree (some S) [] S.strip = (S.strip, []) := by
    apply pruneTree_id S.strip (some S) [] hwfs
    intro p e hp
    rw [strip_find p S] at hp
    simp only [List.nil_append, fsExists_some]
    cases hS : S.find p with
    | none => rw [hS] at hp; cases hp
    | some e' => simp
  have hroot : phaseARoot (some S) (some (Tree.node 0 [] [])) = .ok (some S.strip, evA) := by
    rw [phaseARoot]
    exact hA
  refine ⟨evA, ?_, fun p => strip_find p S⟩
  simp only [sync, hroot, exceptBind_ok]
  simp [pruneRoot, hid]

/-- Witness for C1 at a concrete two-level source tree. -/
theorem C1_mirror_witness :
    ∃ ev, sync (some (Tree.node 3 [("a", .node 4 [] [("b", ⟨5, 6⟩)])] [("c", ⟨7, 8⟩)]))
        (some (.node 0 [] [])) =
      .ok (some (Tree.node 3 [("a", .node 4 [] [("b", ⟨5, 6⟩)])] [("c", ⟨7, 8⟩)]).strip, ev) ∧
      ∀ p : Path,
        (Tree.node 3 [("a", .node 4 [] [("b", ⟨5, 6⟩)])] [("c", ⟨7, 8⟩)]).strip.find p =
          ((Tree.node 3 [("a", .node 4 [] [("b", ⟨5, 6⟩)])] [("c", ⟨7, 8⟩)]).find p).map
            entryStrip :=
  C1_mirror (Tree.node 3 [("a", .node 4 [] [("b", ⟨5, 6⟩)])] [("c", ⟨7, 8⟩)]) rfl

/-! ## Bridging freshness and lookups to the `List` API -/

theorem memB_iff_mem {l : List String} {x : String} : memB l x = true ↔ x ∈ l := by
  induction l with
  | nil => simp [memB]
  | cons y ys ih =>
    by_cases hy : y = x
    · subst hy
      simp [memB]
    · simp only [memB, if_neg hy, List.mem_cons, ih]
      constructor
      · exact fun h => Or.inr h
      · rintro (h | h)
        · exact absurd h.symm hy
        · exact h

theorem freshKeys_iff_nodup {l : List String} : freshKeys l = true ↔ l.Nodup := by
  induction l with
  | nil => simp [freshKeys]
  | cons y ys ih =>
    simp only [freshKeys, Bool.and_eq_true, Bool.not_eq_true', List.nodup_cons, ih]
    constructor
    · rintro ⟨h1, h2⟩
      refine ⟨fun hmem => ?_, h2⟩
      rw [memB_iff_mem.mpr hmem] at h1
      cases h1
    · rintro ⟨h1, h2⟩
      refine ⟨?_, h2⟩
      cases hm : memB ys y with
      | false => rfl
      | true => exact absurd (memB_iff_mem.mp hm) h1

theorem lookupE_eq_none_iff {α : Type} {xs : List (String × α)} {x : String} :
    lookupE xs x = none ↔ x ∉ xs.map Prod.fst := by
  induction xs with
  | nil => simp
  | cons hd tl ih =>
    obtain ⟨a, b⟩ := hd
    by_cases ha : a = x
    · subst ha
      simp
    · rw [lookupE_cons, if_neg ha]
      simp only [List.map_cons, List.mem_cons]
      rw [ih]
      constructor
      · rintro h (h1 | h2)
        · exact ha h1.symm
        · exact h h2
      · intro h
        exact fun h2 => h (Or.inr h2)

theorem lookupE_filter_some_pred {α : Type} (q : String → Bool) {l : List (String × α)}
    {x : String} {v : α} (h : lookupE (l.filter fun fe => q fe.1) x = some v) :
    q x = true := by
  induction l with
  | nil => simp at h
  | cons hd tl ih =>
    obtain ⟨a, b⟩ := hd
    cases hq : q a with
    | false =>
      rw [List.filter_cons_of_neg (by simp [hq])] at h
      exact ih h
    | true =>
      rw [List.filter_cons_of_pos (by simp [hq])] at h
      by_cases ha : a = x
      · subst ha
        exact hq
      · rw [lookupE_cons, if_neg ha] at h
        exact ih h

theorem updateE_keys {α : Type} (xs : List (String × α)) (k : String) (v : α) :
    (updateE xs k v).map Prod.fst = xs.map Prod.fst := by
  induction xs with
  | nil => rfl
  | cons hd tl ih =>
    obtain ⟨a, b⟩ := hd
    by_cases ha : a = k <;> simp [updateE, ha, ih]

theorem setE_keys_of_some {α : Type} {xs : List (String × α)} {k : String} {v0 : α} (v : α)
    (h : lookupE xs k = some v0) : (setE xs k v).map Prod.fst = xs.map Prod.fst := by
  induction xs with
  | nil => simp at h
  | cons hd tl ih =>
    obtain ⟨a, b⟩ := hd
    by_cases ha : a = k
    · simp [setE, ha]
    · rw [lookupE_cons, if_neg ha] at h
      simp [setE, ha, ih h]

theorem wfList_updateE {ds : List (String × Tree)} {d : String} {v : Tree}
    (h : wfList ds = true) (hv : v.wfB = true) : wfList (updateE ds d v) = true := by
  induction ds with
  | nil => rfl
  | cons hd tl ih =>
    obtain ⟨a, b⟩ := hd
    obtain ⟨h1, h2⟩ := wfList_cons h
    by_cases ha : a = d <;> simp [updateE, ha, wfList, hv, h1, h2, ih h2]

theorem wfList_append_parts {ds1 ds2 : List (String × Tree)}
    (h1 : wfList ds1 = true) (h2 : wfList ds2 = true) : wfList (ds1 ++ ds2) = true := by
  induction ds1 with
  | nil => exact h2
  | cons hd tl ih =>
    obtain ⟨a, b⟩ := hd
    obtain ⟨ha, htl⟩ := wfList_cons h1
    simp [wfList, ha, ih htl]

theorem wfList_lookupE {ds : List (String × Tree)} {d : String} {v : Tree}
    (h : wfList ds = true) (hl : lookupE ds d = some v) : v.wfB = true := by
  induction ds with
  | nil => simp at hl
  | cons hd tl ih =>
    obtain ⟨a, b⟩ := hd
    obtain ⟨ha, htl⟩ := wfList_cons h
    by_cases hx : a = d
    · rw [lookupE_cons, if_pos hx] at hl
      injection hl with hl
      subst hl
      exact ha
    · rw [lookupE_cons, if_neg hx] at hl
      exact ih htl hl

/-! ## Access lemmas for kind-consistency -/

theorem kindCons_parts {mS mT : Nat} {ds dsT : List (String × Tree)}
    {fs fsT : List (String × FileData)}
    (h : kindCons (.node mS ds fs) (.node mT dsT fsT) = true) :
    kindConsDirs ds dsT fsT = true ∧ ∀ fe ∈ fs, lookupE dsT fe.1 = none := by
  simp only [kindCons, Bool.and_eq_true, List.all_eq_true] at h
  refine ⟨h.1, fun fe hfe => ?_⟩
  have := h.2 fe hfe
  simpa [Option.isNone_iff_eq_none] using this

theorem kindConsDirs_spec {ds dsT : List (String × Tree)} {fs' : List (String × FileData)}
    {d : String} {subd : Tree}
    (h : kindConsDirs ds dsT fs' = true) (hm : (d, subd) ∈ ds) :
    (∀ subT, lookupE dsT d = some subT → kindCons subd subT = true) ∧
    (lookupE dsT d = none → lookupE fs' d = none) := by
  induction ds with
  | nil => simp at hm
  | cons hd tl ih =>
    obtain ⟨a, b⟩ := hd
    simp only [kindConsDirs, Bool.and_eq_true] at h
    rcases List.mem_cons.mp hm with h1 | h2
    · cases h1
      constructor
      · intro subT hl
        rw [hl] at h
        exact h.1
      · intro hl
        rw [hl] at h
        have := h.1
        simpa [Option.isNone_iff_eq_none] using this
    · exact ih h.2 h2

theorem kindCons_empty (S : Tree) : kindCons S (.node 0 [] []) = true := by
  obtain ⟨mS, ds, fs⟩ := S
  have hdirs : ∀ ds', kindConsDirs ds' ([] : List (String × Tree))
      ([] : List (String × FileData)) = true := by
    intro ds'
    induction ds' with
    | nil => rfl
    | cons hd tl ih =>
      obtain ⟨a, b⟩ := hd
      simp [kindConsDirs, ih]
  simp [kindCons, hdirs ds]

theorem getmtime_file {t : Tree} {p : Path} {fd : FileData}
    (h : t.find p = some (.file fd)) : getmtime (some t) p = fd.mtime := by
  simp [getmtime, h]

/-! ## Phase B preserves well-formedness -/

theorem filter_map_fst_sublist {α : Type} (l : List (String × α)) (q : (String × α) → Bool) :
    ((l.filter q).map Prod.fst).Sublist (l.map Prod.fst) :=
  (List.filter_sublist l).map Prod.fst

mutual

theorem prune_wf : ∀ (t : Tree) (src : Option Tree) (base : Path),
    t.wfB = true → ((pruneTree src base t).1).wfB = true := by
  intro t src base hwf
  obtain ⟨m, ds, fs⟩ := t
  obtain ⟨hkeys, hwl⟩ := wfB_node hwf
  obtain ⟨hwl', hsub⟩ := pruneChildren_wf ds src base hwl
  have hkept : ((fs.filter fun fe => fsExists src (base ++ [fe.1])).map Prod.fst).Sublist
      (fs.map Prod.fst) := filter_map_fst_sublist fs _
  have hnodup : (((pruneChildren src base ds).1.map Prod.fst) ++
      ((fs.filter fun fe => fsExists src (base ++ [fe.1])).map Prod.fst)).Nodup :=
    (freshKeys_iff_nodup.mp hkeys).sublist (hsub.append hkept)
  show (Tree.node m (pruneChildren src base ds).1
    (fs.filter fun fe => fsExists src (base ++ [fe.1]))).wfB = true
  simp only [Tree.wfB, Bool.and_eq_true]
  exact ⟨freshKeys_iff_nodup.mpr hnodup, hwl'⟩

theorem pruneChildren_wf : ∀ (ds : List (String × Tree)) (src : Option Tree) (base : Path),
    wfList ds = true →
    wfList ((pruneChildren src base ds).1) = true ∧
    (((pruneChildren src base ds).1).map Prod.fst).Sublist (ds.map Prod.fst) := by
  intro ds src base hwl
  match ds with
  | [] => exact ⟨rfl, by simp [pruneChildren]⟩
  | (d, sub) :: rest =>
    obtain ⟨hwfd, hwl'⟩ := wfList_cons hwl
    obtain ⟨ih1, ih2⟩ := pruneChildren_wf rest src base hwl'
    by_cases hk : fsExists src (base ++ [d]) = true
    · have hps := prune_wf sub src (base ++ [d]) hwfd
      constructor
      · show wfList ((pruneChildren src base ((d, sub) :: rest)).1) = true
        simp only [pruneChildren, hk, if_true]
        simp [wfList, hps, ih1]
      · show (((pruneChildren src base ((d, sub) :: rest)).1).map Prod.fst).Sublist _
        simp only [pruneChildren, hk, if_true]
        simpa using ih2.cons₂ d
    · simp only [Bool.not_eq_true] at hk
      constructor
      · show wfList ((pruneChildren src base ((d, sub) :: rest)).1) = true
        simp only [pruneChildren, hk]
        simpa using ih1
      · show (((pruneChildren src base ((d, sub) :: rest)).1).map Prod.fst).Sublist _
        simp only [pruneChildren, hk]
        simpa using ih2.cons d

end

/-! ## Every entry surviving Phase B has a source counterpart -/

mutual

theorem prune_within : ∀ (t : Tree) (src : Option Tree) (base : Path),
    fsExists src base = true →
    ∀ (p : Path) (e : Entry), ((pruneTree src base t).1).find p = some e →
    fsExists src (base ++ p) = true := by
  intro t src base hbase p e hfound
  obtain ⟨m, ds, fs⟩ := t
  cases p with
  | nil => simpa using hbase
  | cons x xs =>
    have hshape : (pruneTree src base (.node m ds fs)).1 =
        Tree.node m (pruneChildren src base ds).1
          (fs.filter fun fe => fsExists src (base ++ [fe.1])) := by
      simp [pruneTree]
    rw [hshape] at hfound
    cases hl : lookupE (pruneChildren src base ds).1 x with
    | some v =>
      rw [find_cons_dir m _ xs hl] at hfound
      obtain ⟨hex, hprop⟩ := pruneChildren_inv ds src base x v hl
      have := hprop xs e hfound
      rwa [List.append_assoc, List.singleton_append] at this
    | none =>
      cases xs with
      | nil =>
        rw [find_singleton_file m _ hl] at hfound
        cases hf : lookupE (fs.filter fun fe => fsExists src (base ++ [fe.1])) x with
        | none => rw [hf] at hfound; cases hfound
        | some fd =>
          exact lookupE_filter_some_pred (fun nm => fsExists src (base ++ [nm])) hf
      | cons z zs =>
        rw [find_cons_miss m _ zs hl] at hfound
        cases hfound

theorem pruneChildren_inv : ∀ (ds : List (String × Tree)) (src : Option Tree) (base : Path)
    (x : String) (v : Tree),
    lookupE ((pruneChildren src base ds).1) x = some v →
    fsExists src (base ++ [x]) = true ∧
    ∀ (p : Path) (e : Entry), v.find p = some e →
      fsExists src ((base ++ [x]) ++ p) = true := by
  intro ds src base x v hl
  match ds with
  | [] => simp [pruneChildren] at hl
  | (d, sub) :: rest =>
    by_cases hk : fsExists src (base ++ [d]) = true
    · rw [show (pruneChildren src base ((d, sub) :: rest)).1 =
          (d, (pruneTree src (base ++ [d]) sub).1) :: (pruneChildren src base rest).1 by
        simp [pruneChildren, hk]] at hl
      by_cases hdx : d = x
      · subst hdx
        rw [lookupE_cons, if_pos rfl] at hl
        injection hl with hl
        subst hl
        exact ⟨hk, prune_within sub src (base ++ [d]) hk⟩
      · rw [lookupE_cons, if_neg hdx] at hl
        exact pruneChildren_inv rest src base x v hl
    · simp only [Bool.not_eq_true] at hk
      rw [show (pruneChildren src base ((d, sub) :: rest)).1 =
          (pruneChildren src base rest).1 by simp [pruneChildren, hk]] at hl
      exact pruneChildren_inv rest src base x v hl

end

/-! ## Phase A over an existing destination: the two loops -/

theorem lookupE_append_none {α : Type} {l1 l2 : List (String × α)} {k : String}
    (h : lookupE (l1 ++ l2) k = none) :
    lookupE l1 k = none ∧ lookupE l2 k = none := by
  cases hl : lookupE l1 k with
  | some v => rw [lookupE_append_left hl] at h; cases h
  | none => rw [lookupE_append_right _ hl] at h; exact ⟨rfl, h⟩

/-- The directory loop over a kind-consistent destination node: existing
subdirectories are left alone, missing ones are appended as fresh empty
directories, in listing order. -/
theorem dirPass_cover : ∀ (ds : List (String × Tree)) (dst : Tree) (q : Path) (mT : Nat)
    (dsT : List (String × Tree)) (fsT : List (String × FileData)),
    freshKeys (ds.map Prod.fst) = true →
    (∀ de ∈ ds, lookupE dsT de.1 = none → lookupE fsT de.1 = none) →
    dst.find q = some (.dir (.node mT dsT fsT)) →
    ∃ ev, dirPass (some dst) q ds = .ok
      (some (setSubtree dst q (.node mT
        (dsT ++ (ds.filter fun de => (lookupE dsT de.1).isNone).map
          fun de => (de.1, Tree.node 0 [] [])) fsT)), ev) := by
  intro ds
  induction ds with
  | nil =>
    intro dst q mT dsT fsT _ _ hfind
    refine ⟨[], ?_⟩
    rw [dirPass]
    simp only [List.filter_nil, List.map_nil, List.append_nil]
    rw [setSubtree_self q dst _ hfind]
  | cons hd rest ih =>
    intro dst q mT dsT fsT hkeys hkc hfind
    obtain ⟨d, subd⟩ := hd
    obtain ⟨hmem, hkeys'⟩ := freshKeys_cons (by simpa using hkeys)
    have hfind1 : dst.find (q ++ [d]) = (Tree.node mT dsT fsT).find [d] := by
      rw [find_append q dst [d], hfind]
      rfl
    cases hdT : lookupE dsT d with
    | some subT =>
      have hex : fsExists (some dst) (q ++ [d]) = true := by
        rw [fsExists_some, hfind1, find_cons_dir mT fsT [] hdT]
        simp
      have hstep : dirStep (some dst) q d = .ok (some dst, []) := by
        rw [dirStep, hex]
        simp
      obtain ⟨ev, hrest⟩ := ih dst q mT dsT fsT hkeys'
        (fun de hde => hkc de (List.mem_cons_of_mem _ hde)) hfind
      refine ⟨[] ++ ev, ?_⟩
      rw [dirPass]
      simp only [hstep, exceptBind_ok]
      rw [hrest]
      simp only [exceptBind_ok]
      rw [List.filter_cons_of_neg (by simp [hdT])]
    | none =>
      have hfT : lookupE fsT d = none := hkc (d, subd) (List.mem_cons_self _ _) hdT
      have hex : fsExists (some dst) (q ++ [d]) = false := by
        rw [fsExists_some, hfind1, find_singleton_file mT fsT hdT, hfT]
        rfl
      have hmk : mkdirsRoot (some dst) (q ++ [d]) =
          .ok (some (setSubtree dst q (.node mT (dsT ++ [(d, .node 0 [] [])]) fsT))) := by
        show (dst.mkdirs (q ++ [d])).map some = _
        rw [mkdirs_lift q dst _ [d] hfind, mkdirs_cons_fresh mT [] hdT hfT]
        rfl
      have hstep : dirStep (some dst) q d =
          .ok (some (setSubtree dst q (.node mT (dsT ++ [(d, .node 0 [] [])]) fsT)),
            [.dirCreated (q ++ [d])]) := by
        rw [dirStep, hex]
        simp only [Bool.false_eq_true, if_false]
        rw [hmk]
        rfl
      have hfind' : (setSubtree dst q (.node mT (dsT ++ [(d, .node 0 [] [])]) fsT)).find q =
          some (.dir (.node mT (dsT ++ [(d, .node 0 [] [])]) fsT)) := by
        simpa using find_setSubtree_append q dst _
          (.node mT (dsT ++ [(d, .node 0 [] [])]) fsT) [] hfind
      have hkc' : ∀ de ∈ rest, lookupE (dsT ++ [(d, Tree.node 0 [] [])]) de.1 = none →
          lookupE fsT de.1 = none := by
        intro de hde hl
        exact hkc de (List.mem_cons_of_mem _ hde) (lookupE_append_none hl).1
      obtain ⟨ev, hrest⟩ := ih (setSubtree dst q (.node mT (dsT ++ [(d, .node 0 [] [])]) fsT))
        q mT (dsT ++ [(d, .node 0 [] [])]) fsT hkeys' hkc' hfind'
      rw [setSubtree_setSubtree q dst _ _ _ hfind] at hrest
      have hfilter : rest.filter (fun de => (lookupE (dsT ++ [(d, Tree.node 0 [] [])]) de.1).isNone) =
          rest.filter fun de => (lookupE dsT de.1).isNone := by
        apply List.filter_congr
        intro de hde
        have hne : ¬ d = de.1 := by
          intro hcontra
          rw [hcontra] at hmem
          rw [memB_of_mem (List.mem_map_of_mem Prod.fst hde)] at hmem
          cases hmem
        cases hl : lookupE dsT de.1 with
        | some v => simp [lookupE_append_left hl, hl]
        | none => simp [lookupE_append_right _ hl, hl, hne]
      rw [hfilter] at hrest
      refine ⟨[.dirCreated (q ++ [d])] ++ ev, ?_⟩
      rw [dirPass]
      simp only [hstep, exceptBind_ok]
      rw [hrest]
      simp only [exceptBind_ok]
      rw [List.filter_cons_of_pos (by simp [hdT])]
      simp [List.append_assoc]

/-- The file loop over a kind-consistent destination node: missing files
are appended, strictly-older destination files are overwritten, same-age
or newer ones are untouched; the destination file listing afterwards
covers the sources with at-least-their modification times, and names
outside the source listing keep their bindings. -/
theorem filePass_cover : ∀ (fs : List (String × FileData)) (dst : Tree) (q : Path) (mT : Nat)
    (dsT2 : List (String × Tree)) (fsT : List (String × FileData)),
    freshKeys (fs.map Prod.fst) = true →
    (∀ fe ∈ fs, lookupE dsT2 fe.1 = none) →
    dst.find q = some (.dir (.node mT dsT2 fsT)) →
    ∃ F ev, filePass (some dst) q fs = .ok (some (setSubtree dst q (.node mT dsT2 F)), ev) ∧
      F.map Prod.fst = fsT.map Prod.fst ++
        ((fs.filter fun fe => (lookupE fsT fe.1).isNone).map Prod.fst) ∧
      (∀ fe ∈ fs, ∃ fd2, lookupE F fe.1 = some fd2 ∧ fe.2.mtime ≤ fd2.mtime) ∧
      (∀ x, memB (fs.map Prod.fst) x = false → lookupE F x = lookupE fsT x) := by
  intro fs
  induction fs with
  | nil =>
    intro dst q mT dsT2 fsT _ _ hfind
    refine ⟨fsT, [], ?_, by simp, by simp, fun x _ => rfl⟩
    rw [filePass]
    rw [setSubtree_self q dst _ hfind]
  | cons hd rest ih =>
    intro dst q mT dsT2 fsT hkeys hdisj hfind
    obtain ⟨f, fd⟩ := hd
    obtain ⟨hmem, hkeys'⟩ := freshKeys_cons (by simpa using hkeys)
    have hd2 : lookupE dsT2 f = none := hdisj (f, fd) (List.mem_cons_self _ _)
    have hfind1 : dst.find (q ++ [f]) = (lookupE fsT f).map .file := by
      rw [find_append q dst [f], hfind]
      show (Tree.node mT dsT2 fsT).find [f] = _
      rw [find_singleton_file mT fsT hd2]
    have hrestne : ∀ fe ∈ rest, ¬ f = fe.1 := by
      intro fe hfe hcontra
      rw [hcontra] at hmem
      rw [memB_of_mem (List.mem_map_of_mem Prod.fst hfe)] at hmem
      cases hmem
    cases hfT : lookupE fsT f with
    | some fd' =>
      have hex : fsExists (some dst) (q ++ [f]) = true := by
        rw [fsExists_some, hfind1, hfT]
        rfl
      have hmt : getmtime (some dst) (q ++ [f]) = fd'.mtime :=
        getmtime_file (by rw [hfind1, hfT]; rfl)
      by_cases hgt : fd.mtime > fd'.mtime
      · -- overwrite
        have hcp : copy2Root (some dst) (q ++ [f]) fd =
            .ok (some (setSubtree dst q (.node mT dsT2 (setE fsT f fd)))) := by
          show (dst.copy2 (q ++ [f]) fd).map some = _
          rw [copy2_lift q dst _ [f] fd (by simp) hfind, copy2_single_flat mT fsT fd hd2]
          rfl
        have hstep : fileStep (some dst) q f fd =
            .ok (some (setSubtree dst q (.node mT dsT2 (setE fsT f fd))),
              [.fileModified (q ++ [f])]) := by
          rw [fileStep, hex]
          simp only [Bool.true_eq_false, if_false, hmt, hgt, if_pos]
          rw [hcp]
          rfl
        have hfind' : (setSubtree dst q (.node mT dsT2 (setE fsT f fd))).find q =
            some (.dir (.node mT dsT2 (setE fsT f fd))) := by
          simpa using find_setSubtree_append q dst _ (.node mT dsT2 (setE fsT f fd)) [] hfind
        obtain ⟨F, ev, hrest, hkeysF, hcovF, hframeF⟩ := ih
          (setSubtree dst q (.node mT dsT2 (setE fsT f fd))) q mT dsT2 (setE fsT f fd)
          hkeys' (fun fe hfe => hdisj fe (List.mem_cons_of_mem _ hfe)) hfind'
        rw [setSubtree_setSubtree q dst _ _ _ hfind] at hrest
        refine ⟨F, [.fileModified (q ++ [f])] ++ ev, ?_, ?_, ?_, ?_⟩
        · rw [filePass]
          simp only [hstep, exceptBind_ok]
          rw [hrest]
          rfl
        · rw [hkeysF, setE_keys_of_some fd hfT]
          rw [List.filter_cons_of_neg (by simp [hfT])]
          congr 1
          apply congrArg
          apply List.filter_congr
          intro fe hfe
          rw [lookupE_setE_other fsT f fe.1 fd (fun h => hrestne fe hfe h.symm)]
        · intro fe hfe
          rcases List.mem_cons.mp hfe with h1 | h2
          · cases h1
            refine ⟨fd, ?_, le_refl _⟩
            rw [hframeF _ (by cases hm2 : memB (rest.map Prod.fst) f with
                | true => rw [hm2] at hmem; cases hmem
                | false => rfl),
              lookupE_setE_self]
          · exact hcovF fe h2
        · intro x hx
          simp only [List.map_cons] at hx
          have hxf : ¬ f = x := by
            intro hcontra
            subst hcontra
            simp [memB] at hx
          have hx' : memB (rest.map Prod.fst) x = false := by
            simpa [memB, hxf] using hx
          rw [hframeF x hx', lookupE_setE_other fsT f x fd fun h => hxf h.symm]
      · -- same age or newer: untouched
        have hstep : fileStep (some dst) q f fd = .ok (some dst, []) := by
          rw [fileStep, hex]
          simp only [Bool.true_eq_false, if_false, hmt]
          simp [hgt]
        obtain ⟨F, ev, hrest, hkeysF, hcovF, hframeF⟩ := ih dst q mT dsT2 fsT
          hkeys' (fun fe hfe => hdisj fe (List.mem_cons_of_mem _ hfe)) hfind
        refine ⟨F, [] ++ ev, ?_, ?_, ?_, ?_⟩
        · rw [filePass]
          simp only [hstep, exceptBind_ok]
          rw [hrest]
          rfl
        · rw [hkeysF, List.filter_cons_of_neg (by simp [hfT])]
        · intro fe hfe
          rcases List.mem_cons.mp hfe with h1 | h2
          · cases h1
            refine ⟨fd', ?_, Nat.le_of_not_lt hgt⟩
            rw [hframeF _ (by cases hm2 : memB (rest.map Prod.fst) f with
                | true => rw [hm2] at hmem; cases hmem
                | false => rfl), hfT]
          · exact hcovF fe h2
        · intro x hx
          simp only [List.map_cons] at hx
          have hxf : ¬ f = x := by
            intro hcontra
            subst hcontra
            simp [memB] at hx
          have hx' : memB (rest.map Prod.fst) x = false := by
            simpa [memB, hxf] using hx
          rw [hframeF x hx']
    | none =>
      have hex : fsExists (some dst) (q ++ [f]) = false := by
        rw [fsExists_some, hfind1, hfT]
        rfl
      have hcp : copy2Root (some dst) (q ++ [f]) fd =
          .ok (some (setSubtree dst q (.node mT dsT2 (fsT ++ [(f, fd)])))) := by
        show (dst.copy2 (q ++ [f]) fd).map some = _
        rw [copy2_lift q dst _ [f] fd (by simp) hfind, copy2_single_flat mT fsT fd hd2,
          setE_append_of_none fd hfT]
        rfl
      have hstep : fileStep (some dst) q f fd =
          .ok (some (setSubtree dst q (.node mT dsT2 (fsT ++ [(f, fd)]))),
            [.fileCreated (q ++ [f])]) := by
        rw [fileStep, hex]
        simp only [if_pos rfl]
        rw [hcp]
        rfl
      have hfind' : (setSubtree dst q (.node mT dsT2 (fsT ++ [(f, fd)]))).find q =
          some (.dir (.node mT dsT2 (fsT ++ [(f, fd)]))) := by
        simpa using find_setSubtree_append q dst _ (.node mT dsT2 (fsT ++ [(f, fd)])) [] hfind
      obtain ⟨F, ev, hrest, hkeysF, hcovF, hframeF⟩ := ih
        (setSubtree dst q (.node mT dsT2 (fsT ++ [(f, fd)]))) q mT dsT2 (fsT ++ [(f, fd)])
        hkeys' (fun fe hfe => hdisj fe (List.mem_cons_of_mem _ hfe)) hfind'
      rw [setSubtree_setSubtree q dst _ _ _ hfind] at hrest
      have hfilter : rest.filter (fun fe => (lookupE (fsT ++ [(f, fd)]) fe.1).isNone) =
          rest.filter fun fe => (lookupE fsT fe.1).isNone := by
        apply List.filter_congr
        intro fe hfe
        cases hl : lookupE fsT fe.1 with
        | some v => simp [lookupE_append_left hl, hl]
        | none => simp [lookupE_append_right _ hl, hl, hrestne fe hfe]
      refine ⟨F, [.fileCreated (q ++ [f])] ++ ev, ?_, ?_, ?_, ?_⟩
      · rw [filePass]
        simp only [hstep, exceptBind_ok]
        rw [hrest]
        rfl
      · rw [hkeysF, hfilter, List.filter_cons_of_pos (by simp [hfT])]
        simp [List.append_assoc]
      · intro fe hfe
        rcases List.mem_cons.mp hfe with h1 | h2
        · cases h1
          refine ⟨fd, ?_, le_refl _⟩
          rw [hframeF _ (by cases hm2 : memB (rest.map Prod.fst) f with
              | true => rw [hm2] at hmem; cases hmem
              | false => rfl),
            lookupE_append_right _ hfT]
          simp
        · exact hcovF fe h2
      · intro x hx
        simp only [List.map_cons] at hx
        have hxf : ¬ f = x := by
          intro hcontra
          subst hcontra
          simp [memB] at hx
        have hx' : memB (rest.map Prod.fst) x = false := by
          simpa [memB, hxf] using hx
        rw [hframeF x hx']
        cases hl : lookupE fsT x with
        | some v => simp [lookupE_append_left hl, hl]
        | none => simp [lookupE_append_right _ hl, hl, hxf]

/-! ## Phase A over a kind-consistent destination -/

theorem lookupE_mem {α : Type} {xs : List (String × α)} {x : String} {v : α}
    (h : lookupE xs x = some v) : (x, v) ∈ xs := by
  induction xs with
  | nil => simp at h
  | cons hd tl ih =>
    obtain ⟨a, b⟩ := hd
    by_cases ha : a = x
    · subst ha
      rw [lookupE_cons, if_pos rfl] at h
      injection h with h
      subst h
      exact List.mem_cons_self _ _
    · rw [lookupE_cons, if_neg ha] at h
      exact List.mem_cons_of_mem _ (ih h)

theorem wfList_mapEmpty (l : List (String × Tree)) :
    wfList (l.map fun de => (de.1, Tree.node 0 [] [])) = true := by
  induction l with
  | nil => rfl
  | cons hd tl ih =>
    obtain ⟨a, b⟩ := hd
    simp [wfList, ih]
    rfl

theorem emptyDir_wfB : (Tree.node 0 [] []).wfB = true := rfl

mutual

/-- Phase A at a source subtree `S` whose destination counterpart `T` is a
kind-consistent well-formed directory: the walk succeeds, only rewrites
the destination subtree at `q`, and the rewritten subtree is well-formed
and covers `S` (every source directory path is a directory, every source
file path is a file at least as new as the source file). -/
theorem phaseA_covers : ∀ (S : Tree) (dst : Tree) (q : Path) (T : Tree),
    S.wfB = true → T.wfB = true → kindCons S T = true →
    dst.find q = some (.dir T) →
    ∃ T1 ev, phaseA S q (some dst) = .ok (some (setSubtree dst q T1), ev) ∧
      T1.wfB = true ∧ Covers S T1 := by
  intro S dst q T hwfS hwfT hkc hfind
  obtain ⟨mS, ds, fs⟩ := S
  obtain ⟨mT, dsT, fsT⟩ := T
  obtain ⟨hkeysS, hwlS⟩ := wfB_node hwfS
  obtain ⟨hkeysT, hwlT⟩ := wfB_node hwfT
  obtain ⟨hkcd, hkcf⟩ := kindCons_parts hkc
  have hkdS : freshKeys (ds.map Prod.fst) = true := freshKeys_append_left hkeysS
  have hkfS : freshKeys (fs.map Prod.fst) = true := freshKeys_append_right hkeysS
  -- names created by the directory loop and the file loop
  have hC_spec : ∀ x ∈ ((ds.filter fun de => (lookupE dsT de.1).isNone).map Prod.fst),
      lookupE dsT x = none ∧ x ∈ ds.map Prod.fst := by
    intro x hx
    obtain ⟨de, hde, hdex⟩ := List.mem_map.mp hx
    obtain ⟨hdeds, hpred⟩ := List.mem_filter.mp hde
    subst hdex
    exact ⟨Option.isNone_iff_eq_none.mp hpred, List.mem_map_of_mem _ hdeds⟩
  have hcrossS : ∀ x, x ∈ ds.map Prod.fst → x ∈ fs.map Prod.fst → False := by
    intro x h1 h2
    have := freshKeys_cross hkeysS (memB_iff_mem.mpr h1)
    rw [memB_iff_mem.mpr h2] at this
    cases this
  -- Step 1: the directory loop
  obtain ⟨evD, hD⟩ := dirPass_cover ds dst q mT dsT fsT hkdS
    (fun de hde => (kindConsDirs_spec hkcd hde).2) hfind
  have hfindD : (setSubtree dst q (.node mT
      (dsT ++ (ds.filter fun de => (lookupE dsT de.1).isNone).map
        fun de => (de.1, Tree.node 0 [] [])) fsT)).find q =
      some (.dir (.node mT
        (dsT ++ (ds.filter fun de => (lookupE dsT de.1).isNone).map
          fun de => (de.1, Tree.node 0 [] [])) fsT)) := by
    simpa using find_setSubtree_append q dst _ (.node mT
      (dsT ++ (ds.filter fun de => (lookupE dsT de.1).isNone).map
        fun de => (de.1, Tree.node 0 [] [])) fsT) [] hfind
  -- Step 2: the file loop
  have hdisjF : ∀ fe ∈ fs, lookupE
      (dsT ++ (ds.filter fun de => (lookupE dsT de.1).isNone).map
        fun de => (de.1, Tree.node 0 [] [])) fe.1 = none := by
    intro fe hfe
    rw [lookupE_append_right _ (hkcf fe hfe)]
    rw [lookupE_mapEmpty]
    have : lookupE (ds.filter fun de => (lookupE dsT de.1).isNone) fe.1 = none := by
      rw [lookupE_eq_none_iff]
      intro hmem
      exact hcrossS fe.1
        ((filter_map_fst_sublist ds _).subset hmem)
        (List.mem_map_of_mem _ hfe)
    rw [this]
    rfl
  obtain ⟨F, evF, hF, hkeysF, hcovF, hframeF⟩ := filePass_cover fs
    (setSubtree dst q (.node mT
      (dsT ++ (ds.filter fun de => (lookupE dsT de.1).isNone).map
        fun de => (de.1, Tree.node 0 [] [])) fsT)) q mT
    (dsT ++ (ds.filter fun de => (lookupE dsT de.1).isNone).map
      fun de => (de.1, Tree.node 0 [] [])) fsT hkfS hdisjF hfindD
  rw [setSubtree_setSubtree q dst _ _ _ hfind] at hF
  have hfindF : (setSubtree dst q (.node mT
      (dsT ++ (ds.filter fun de => (lookupE dsT de.1).isNone).map
        fun de => (de.1, Tree.node 0 [] [])) F)).find q =
      some (.dir (.node mT
        (dsT ++ (ds.filter fun de => (lookupE dsT de.1).isNone).map
          fun de => (de.1, Tree.node 0 [] [])) F)) := by
    simpa using find_setSubtree_append q dst _ (.node mT
      (dsT ++ (ds.filter fun de => (lookupE dsT de.1).isNone).map
        fun de => (de.1, Tree.node 0 [] [])) F) [] hfind
  -- Step 3: descend into the children
  have hchildhyp : ∀ de ∈ ds, ∃ Td, lookupE
      (dsT ++ (ds.filter fun de => (lookupE dsT de.1).isNone).map
        fun de => (de.1, Tree.node 0 [] [])) de.1 = some Td ∧
      Td.wfB = true ∧ kindCons de.2 Td = true := by
    intro de hde
    obtain ⟨d, subd⟩ := de
    cases hdT : lookupE dsT d with
    | some subT =>
      refine ⟨subT, ?_, wfList_lookupE hwlT hdT, (kindConsDirs_spec hkcd hde).1 subT hdT⟩
      exact lookupE_append_left hdT
    | none =>
      refine ⟨.node 0 [] [], ?_, emptyDir_wfB, kindCons_empty subd⟩
      rw [lookupE_append_right _ hdT, lookupE_mapEmpty,
        lookupE_filter_fst (fun nm => (lookupE dsT nm).isNone) ds d (by simp [hdT]),
        lookupE_some_of_mem_fresh hkdS hde]
      rfl
  have hwlL0 : wfList (dsT ++ (ds.filter fun de => (lookupE dsT de.1).isNone).map
      fun de => (de.1, Tree.node 0 [] [])) = true :=
    wfList_append_parts hwlT (wfList_mapEmpty _)
  obtain ⟨L', evC, hC, hkeysL', hwfL', hcovC, hframeC⟩ := phaseAChildren_covers ds
    (setSubtree dst q (.node mT
      (dsT ++ (ds.filter fun de => (lookupE dsT de.1).isNone).map
        fun de => (de.1, Tree.node 0 [] [])) F)) q mT
    (dsT ++ (ds.filter fun de => (lookupE dsT de.1).isNone).map
      fun de => (de.1, Tree.node 0 [] [])) F hwlS hkdS hchildhyp hwlL0 hfindF
  rw [setSubtree_setSubtree q dst _ _ _ hfind] at hC
  -- the final subtree
  refine ⟨.node mT L' F, evD ++ evF ++ evC, ?_, ?_, ?_⟩
  · show phaseA (.node mS ds fs) q (some dst) = _
    rw [phaseA]
    simp only [hD, exceptBind_ok]
    simp only [hF, exceptBind_ok]
    simp only [hC, exceptBind_ok]
  · -- well-formedness of the result
    have hkeysL0 : L'.map Prod.fst = dsT.map Prod.fst ++
        ((ds.filter fun de => (lookupE dsT de.1).isNone).map Prod.fst) := by
      rw [hkeysL']
      simp [List.map_map]
    have hkeysF' : F.map Prod.fst = fsT.map Prod.fst ++
        ((fs.filter fun fe => (lookupE fsT fe.1).isNone).map Prod.fst) := hkeysF
    have hD_spec : ∀ x ∈ ((fs.filter fun fe => (lookupE fsT fe.1).isNone).map Prod.fst),
        lookupE fsT x = none ∧ x ∈ fs.map Prod.fst := by
      intro x hx
      obtain ⟨fe, hfe, hfex⟩ := List.mem_map.mp hx
      obtain ⟨hfefs, hpred⟩ := List.mem_filter.mp hfe
      subst hfex
      exact ⟨Option.isNone_iff_eq_none.mp hpred, List.mem_map_of_mem _ hfefs⟩
    have hABnodup := freshKeys_iff_nodup.mp hkeysT
    have hSnodup := freshKeys_iff_nodup.mp hkeysS
    obtain ⟨hAnodup, hBnodup, hABdisj⟩ := List.nodup_append.mp hABnodup
    have hCnodup : ((ds.filter fun de => (lookupE dsT de.1).isNone).map Prod.fst).Nodup :=
      ((freshKeys_iff_nodup.mp hkdS).sublist (filter_map_fst_sublist ds _))
    have hDnodup : ((fs.filter fun fe => (lookupE fsT fe.1).isNone).map Prod.fst).Nodup :=
      ((freshKeys_iff_nodup.mp hkfS).sublist (filter_map_fst_sublist fs _))
    show (Tree.node mT L' F).wfB = true
    simp only [Tree.wfB, Bool.and_eq_true]
    refine ⟨?_, hwfL'⟩
    rw [freshKeys_iff_nodup, hkeysL0, hkeysF']
    rw [List.nodup_append]
    refine ⟨?_, ?_, ?_⟩
    · rw [List.nodup_append]
      refine ⟨hAnodup, hCnodup, ?_⟩
      intro x hxA hxC
      have := (hC_spec x hxC).1
      rw [lookupE_eq_none_iff] at this
      exact this hxA
    · rw [List.nodup_append]
      refine ⟨hBnodup, hDnodup, ?_⟩
      intro x hxB hxD
      have := (hD_spec x hxD).1
      rw [lookupE_eq_none_iff] at this
      exact absurd hxB this
    · intro x hx
      rcases List.mem_append.mp hx with hxA | hxC
      · intro hx2
        rcases List.mem_append.mp hx2 with hxB | hxD
        · exact hABdisj hxA hxB
        · obtain ⟨fe, hfe, hfex⟩ := List.mem_map.mp (hD_spec x hxD).2
          have := hkcf fe hfe
          rw [hfex, lookupE_eq_none_iff] at this
          exact this hxA
      · intro hx2
        rcases List.mem_append.mp hx2 with hxB | hxD
        · obtain ⟨de, hde, hdex⟩ := List.mem_map.mp (hC_spec x hxC).2
          have hfsnone := (kindConsDirs_spec hkcd hde).2 (by rw [hdex]; exact (hC_spec x hxC).1)
          rw [hdex, lookupE_eq_none_iff] at hfsnone
          exact hfsnone hxB
        · exact hcrossS x (hC_spec x hxC).2 (hD_spec x hxD).2
  · -- the result covers the source
    intro p
    constructor
    · intro sub hsub
      cases p with
      | nil => exact ⟨.node mT L' F, by simp⟩
      | cons x xs =>
        obtain ⟨subx, hlx, hsubx⟩ := find_dir_cons hsub
        obtain ⟨Td', hlookL', hwfTd', hcovd'⟩ := hcovC (x, subx) (lookupE_mem hlx)
        have := ((hcovd' xs).1) sub hsubx
        obtain ⟨sub', hsub'⟩ := this
        refine ⟨sub', ?_⟩
        rw [find_cons_dir mT F xs hlookL']
        exact hsub'
    · intro fd hfd
      cases p with
      | nil => simp at hfd
      | cons x xs =>
        cases hlx : lookupE ds x with
        | some subx =>
          rw [find_cons_dir mS fs xs hlx] at hfd
          obtain ⟨Td', hlookL', hwfTd', hcovd'⟩ := hcovC (x, subx) (lookupE_mem hlx)
          obtain ⟨fd', hfd', hmt⟩ := ((hcovd' xs).2) fd hfd
          refine ⟨fd', ?_, hmt⟩
          rw [find_cons_dir mT F xs hlookL']
          exact hfd'
        | none =>
          cases xs with
          | cons z zs =>
            rw [find_cons_miss mS fs zs hlx] at hfd
            cases hfd
          | nil =>
            rw [find_singleton_file mS fs hlx] at hfd
            cases hfx : lookupE fs x with
            | none => rw [hfx] at hfd; cases hfd
            | some fd0 =>
              rw [hfx] at hfd
              simp at hfd
              subst hfd
              obtain ⟨fd2, hlookF, hmt⟩ := hcovF (x, fd0) (lookupE_mem hfx)
              have hnotL' : lookupE L' x = none := by
                rw [lookupE_eq_none_iff, hkeysL']
                intro hmem
                rw [List.map_append] at hmem
                rcases List.mem_append.mp hmem with h1 | h2
                · have := hkcf (x, fd0) (lookupE_mem hfx)
                  rw [lookupE_eq_none_iff] at this
                  exact this h1
                · have h2' : x ∈ (ds.filter fun de => (lookupE dsT de.1).isNone).map
                      Prod.fst := by
                    simpa [List.map_map] using h2
                  exact hcrossS x (hC_spec x h2').2
                    (List.mem_map_of_mem _ (lookupE_mem hfx))
              refine ⟨fd2, ?_, hmt⟩
              rw [find_singleton_file mT F hnotL', hlookF]
              rfl

/-- Phase A walk descent when every child of the current source node has a
well-formed kind-consistent destination directory: each child's subtree is
rewritten to one covering it; names outside the source listing are
untouched. -/
theorem phaseAChildren_covers : ∀ (ds : List (String × Tree)) (dst : Tree) (q : Path)
    (mT : Nat) (L : List (String × Tree)) (F : List (String × FileData)),
    wfList ds = true → freshKeys (ds.map Prod.fst) = true →
    (∀ de ∈ ds, ∃ Td, lookupE L de.1 = some Td ∧ Td.wfB = true ∧ kindCons de.2 Td = true) →
    wfList L = true →
    dst.find q = some (.dir (.node mT L F)) →
    ∃ L' ev, phaseAChildren ds q (some dst) =
      .ok (some (setSubtree dst q (.node mT L' F)), ev) ∧
      L'.map Prod.fst = L.map Prod.fst ∧
      wfList L' = true ∧
      (∀ de ∈ ds, ∃ Td', lookupE L' de.1 = some Td' ∧ Td'.wfB = true ∧ Covers de.2 Td') ∧
      (∀ x, memB (ds.map Prod.fst) x = false → lookupE L' x = lookupE L x) := by
  intro ds dst q mT L F hwl hkeys hch hwlL hfind
  match ds with
  | [] =>
    refine ⟨L, [], ?_, rfl, hwlL, by simp, fun x _ => rfl⟩
    show phaseAChildren [] q (some dst) = _
    rw [phaseAChildren, setSubtree_self q dst _ hfind]
  | (d, subd) :: rest =>
    obtain ⟨hwfd, hwl'⟩ := wfList_cons hwl
    obtain ⟨hmem, hkeys'⟩ := freshKeys_cons (by simpa using hkeys)
    obtain ⟨Td, hlookL, hwfTd, hkcTd⟩ := hch (d, subd) (List.mem_cons_self _ _)
    have hchild : dst.find (q ++ [d]) = some (.dir Td) := by
      rw [find_append q dst [d], hfind]
      show (Tree.node mT L F).find [d] = _
      rw [find_cons_dir mT F [] hlookL]
      simp
    obtain ⟨T1d, ev1, h1, hwfT1d, hcovd⟩ := phaseA_covers subd dst (q ++ [d]) Td
      hwfd hwfTd hkcTd hchild
    rw [setSubtree_append q dst _ [d] _ hfind] at h1
    have hsetT : setSubtree (Tree.node mT L F) [d] T1d = .node mT (updateE L d T1d) F := by
      simp only [setSubtree, hlookL, setSubtree_nil]
    rw [hsetT] at h1
    have hfind1 : (setSubtree dst q (.node mT (updateE L d T1d) F)).find q =
        some (.dir (.node mT (updateE L d T1d) F)) := by
      simpa using find_setSubtree_append q dst _ (.node mT (updateE L d T1d) F) [] hfind
    have hrestne : ∀ de ∈ rest, ¬ de.1 = d := by
      intro de hde hcontra
      rw [← hcontra] at hmem
      rw [memB_of_mem (List.mem_map_of_mem Prod.fst hde)] at hmem
      cases hmem
    have hch' : ∀ de ∈ rest, ∃ Td2, lookupE (updateE L d T1d) de.1 = some Td2 ∧
        Td2.wfB = true ∧ kindCons de.2 Td2 = true := by
      intro de hde
      obtain ⟨Td2, hl2, hw2, hk2⟩ := hch de (List.mem_cons_of_mem _ hde)
      exact ⟨Td2, by rw [lookupE_updateE_other L d de.1 T1d (hrestne de hde)]; exact hl2,
        hw2, hk2⟩
    obtain ⟨L2, ev2, h2, hkeys2, hwfl2, hcov2, hframe2⟩ := phaseAChildren_covers rest
      (setSubtree dst q (.node mT (updateE L d T1d) F)) q mT (updateE L d T1d) F
      hwl' hkeys' hch' (wfList_updateE hwlL hwfT1d) hfind1
    rw [setSubtree_setSubtree q dst _ _ _ hfind] at h2
    refine ⟨L2, ev1 ++ ev2, ?_, ?_, hwfl2, ?_, ?_⟩
    · show phaseAChildren ((d, subd) :: rest) q (some dst) = _
      rw [phaseAChildren]
      simp only [h1, exceptBind_ok]
      simp only [h2, exceptBind_ok]
    · rw [hkeys2, updateE_keys]
    · intro de hde
      rcases List.mem_cons.mp hde with h1' | h2'
      · cases h1'
        refine ⟨T1d, ?_, hwfT1d, hcovd⟩
        rw [hframe2 d (by cases hm2 : memB (rest.map Prod.fst) d with
            | true => rw [hm2] at hmem; cases hmem
            | false => rfl)]
        exact lookupE_updateE_self L d T1d Td hlookL
      · exact hcov2 de h2'
    · intro x hx
      simp only [List.map_cons] at hx
      have hxd : ¬ x = d := by
        intro hcontra
        subst hcontra
        simp [memB] at hx
      have hxd' : ¬ d = x := fun h => hxd h.symm
      have hx' : memB (rest.map Prod.fst) x = false := by
        simpa [memB, hxd'] using hx
      rw [hframe2 x hx', lookupE_updateE_other L d x T1d hxd]

end

/-! ## A second pass over a covering destination does nothing -/

theorem dirPass_noop : ∀ (ds : List (String × Tree)) (dst : Tree) (q : Path),
    (∀ de ∈ ds, fsExists (some dst) (q ++ [de.1]) = true) →
    dirPass (some dst) q ds = .ok (some dst, []) := by
  intro ds
  induction ds with
  | nil =>
    intro dst q _
    rw [dirPass]
  | cons hd rest ih =>
    intro dst q hex
    obtain ⟨d, subd⟩ := hd
    have hstep : dirStep (some dst) q d = .ok (some dst, []) := by
      rw [dirStep, hex (d, subd) (List.mem_cons_self _ _)]
      simp
    rw [dirPass]
    simp only [hstep, exceptBind_ok]
    rw [ih dst q (fun de hde => hex de (List.mem_cons_of_mem _ hde))]
    rfl

theorem filePass_noop : ∀ (fs : List (String × FileData)) (dst : Tree) (q : Path),
    (∀ fe ∈ fs, ∃ fd', dst.find (q ++ [fe.1]) = some (.file fd') ∧ fe.2.mtime ≤ fd'.mtime) →
    filePass (some dst) q fs = .ok (some dst, []) := by
  intro fs
  induction fs with
  | nil =>
    intro dst q _
    rw [filePass]
  | cons hd rest ih =>
    intro dst q hcov
    obtain ⟨f, fd⟩ := hd
    obtain ⟨fd', hfind', hle⟩ := hcov (f, fd) (List.mem_cons_self _ _)
    have hex : fsExists (some dst) (q ++ [f]) = true := by simp [hfind']
    have hmt : getmtime (some dst) (q ++ [f]) = fd'.mtime := getmtime_file hfind'
    have hstep : fileStep (some dst) q f fd = .ok (some dst, []) := by
      rw [fileStep, hex]
      simp only [Bool.true_eq_false, if_false, hmt]
      simp [Nat.not_lt.mpr hle]
    rw [filePass]
    simp only [hstep, exceptBind_ok]
    rw [ih dst q (fun fe hfe => hcov fe (List.mem_cons_of_mem _ hfe))]
    rfl

mutual

/-- Phase A is a silent no-op when the destination already covers the
source at the walk position: every directory exists, every file exists at
least as new. -/
theorem phaseA_noop : ∀ (S : Tree) (dst : Tree) (q : Path),
    S.wfB = true →
    (∀ (r : Path) (sub : Tree), S.find r = some (.dir sub) →
      ∃ e, dst.find (q ++ r) = some (.dir e)) →
    (∀ (r : Path) (fd : FileData), S.find r = some (.file fd) →
      ∃ fd', dst.find (q ++ r) = some (.file fd') ∧ fd.mtime ≤ fd'.mtime) →
    phaseA S q (some dst) = .ok (some dst, []) := by
  intro S dst q hwf hdir hfile
  obtain ⟨mS, ds, fs⟩ := S
  obtain ⟨hkeys, hwl⟩ := wfB_node hwf
  have hkdS : freshKeys (ds.map Prod.fst) = true := freshKeys_append_left hkeys
  have hkfS : freshKeys (fs.map Prod.fst) = true := freshKeys_append_right hkeys
  have hdirs : ∀ de ∈ ds, fsExists (some dst) (q ++ [de.1]) = true := by
    intro de hde
    obtain ⟨d, subd⟩ := de
    obtain ⟨subx, hsubx⟩ := Option.isSome_iff_exists.mp (lookupE_isSome_of_mem hde)
    have hfd : (Tree.node mS ds fs).find [d] = some (.dir subx) := by
      rw [find_cons_dir mS fs [] hsubx]
      simp
    obtain ⟨e, he⟩ := hdir [d] subx hfd
    simp [he]
  have hfiles : ∀ fe ∈ fs, ∃ fd', dst.find (q ++ [fe.1]) = some (.file fd') ∧
      fe.2.mtime ≤ fd'.mtime := by
    intro fe hfe
    obtain ⟨f, fd⟩ := fe
    have hnds : lookupE ds f = none := by
      rw [lookupE_eq_none_iff]
      intro hmem
      have := freshKeys_cross hkeys (memB_iff_mem.mpr hmem)
      rw [memB_of_mem (List.mem_map_of_mem Prod.fst hfe)] at this
      cases this
    have hff : (Tree.node mS ds fs).find [f] = some (.file fd) := by
      rw [find_singleton_file mS fs hnds, lookupE_some_of_mem_fresh hkfS hfe]
      rfl
    exact hfile [f] fd hff
  have hchildren : phaseAChildren ds q (some dst) = .ok (some dst, []) := by
    apply phaseAChildren_noop ds dst q
    intro de hde
    obtain ⟨d, subd⟩ := de
    have hld : lookupE ds d = some subd := lookupE_some_of_mem_fresh hkdS hde
    refine ⟨wfList_lookupE hwl hld, ?_, ?_⟩
    · intro r sub hr
      have : (Tree.node mS ds fs).find (d :: r) = some (.dir sub) := by
        rw [find_cons_dir mS fs r hld]
        exact hr
      obtain ⟨e, he⟩ := hdir (d :: r) sub this
      refine ⟨e, ?_⟩
      rw [show (q ++ [d]) ++ r = q ++ d :: r by simp]
      exact he
    · intro r fd hr
      have : (Tree.node mS ds fs).find (d :: r) = some (.file fd) := by
        rw [find_cons_dir mS fs r hld]
        exact hr
      obtain ⟨fd', h1, h2⟩ := hfile (d :: r) fd this
      refine ⟨fd', ?_, h2⟩
      rw [show (q ++ [d]) ++ r = q ++ d :: r by simp]
      exact h1
  show phaseA (.node mS ds fs) q (some dst) = _
  rw [phaseA]
  simp only [dirPass_noop ds dst q hdirs, exceptBind_ok]
  simp only [filePass_noop fs dst q hfiles, exceptBind_ok]
  simp only [hchildren, exceptBind_ok]
  rfl

/-- Walk descent version of `phaseA_noop`. -/
theorem phaseAChildren_noop : ∀ (ds : List (String × Tree)) (dst : Tree) (q : Path),
    (∀ de ∈ ds, de.2.wfB = true ∧
      (∀ (r : Path) (sub : Tree), de.2.find r = some (.dir sub) →
        ∃ e, dst.find ((q ++ [de.1]) ++ r) = some (.dir e)) ∧
      (∀ (r : Path) (fd : FileData), de.2.find r = some (.file fd) →
        ∃ fd', dst.find ((q ++ [de.1]) ++ r) = some (.file fd') ∧ fd.mtime ≤ fd'.mtime)) →
    phaseAChildren ds q (some dst) = .ok (some dst, []) := by
  intro ds dst q hch
  match ds with
  | [] => rw [phaseAChildren]
  | (d, subd) :: rest =>
    obtain ⟨hwfd, hdird, hfiled⟩ := hch (d, subd) (List.mem_cons_self _ _)
    have h1 : phaseA subd (q ++ [d]) (some dst) = .ok (some dst, []) :=
      phaseA_noop subd dst (q ++ [d]) hwfd hdird hfiled
    have h2 : phaseAChildren rest q (some dst) = .ok (some dst, []) :=
      phaseAChildren_noop rest dst q (fun de hde => hch de (List.mem_cons_of_mem _ hde))
    rw [phaseAChildren]
    simp only [h1, exceptBind_ok]
    simp only [h2, exceptBind_ok]
    rfl

end

/-- Claim C2 as amended: for well-formed source and destination trees with
no path changing kind between them (no relative path a directory on one
side and a file on the other), one pass succeeds, and a second pass run
immediately on its result performs no mutation and emits zero events.
The kind-consistency proviso is forced by the counterexample
`C2_counterexample`: a source file whose path is a destination directory
makes every pass copy into and then prune out of that directory, emitting
events forever. -/
theorem C2_second_pass_noop (S D : Tree)
    (hS : S.wfB = true) (hD : D.wfB = true) (hk : kindCons S D = true) :
    ∃ D1 ev1, sync (some S) (some D) = .ok (some D1, ev1) ∧
      sync (some S) (some D1) = .ok (some D1, []) := by
  obtain ⟨T1, evA, hA, hwfT1, hcov⟩ := phaseA_covers S D [] D hS hD hk (by simp)
  rw [setSubtree_nil] at hA
  have hwfT' : ((pruneTree (some S) [] T1).1).wfB = true := prune_wf T1 (some S) [] hwfT1
  have hwithin : ∀ (p : Path) (e : Entry), ((pruneTree (some S) [] T1).1).find p = some e →
      fsExists (some S) p = true := by
    intro p e hp
    have hbase : fsExists (some S) [] = true := by simp
    have := prune_within T1 (some S) [] hbase p e hp
    simpa using this
  have hcov' : Covers S ((pruneTree (some S) [] T1).1) := by
    intro p
    constructor
    · intro sub hsub
      obtain ⟨sub1, hsub1⟩ := (hcov p).1 sub hsub
      have hex : fsExists (some S) ([] ++ p) = true := by simp [hsub]
      exact pruneTree_preserves_dir p T1 (some S) [] sub1 hsub1 hex
    · intro fd hfd
      obtain ⟨fd', hfd', hle⟩ := (hcov p).2 fd hfd
      have hex : fsExists (some S) ([] ++ p) = true := by simp [hfd]
      exact ⟨fd', pruneTree_preserves_file p T1 (some S) [] fd' hfd' hex, hle⟩
  have hpass1 : sync (some S) (some D) =
      .ok (some ((pruneTree (some S) [] T1).1), evA ++ (pruneTree (some S) [] T1).2) := by
    have hroot : phaseARoot (some S) (some D) = .ok (some T1, evA) := by
      rw [phaseARoot]
      exact hA
    simp only [sync, hroot, exceptBind_ok]
    simp [pruneRoot]
  have hnoopA : phaseA S [] (some ((pruneTree (some S) [] T1).1)) =
      .ok (some ((pruneTree (some S) [] T1).1), []) := by
    apply phaseA_noop S _ [] hS
    · intro r sub hr
      obtain ⟨e, he⟩ := (hcov' r).1 sub hr
      exact ⟨e, by simpa using he⟩
    · intro r fd hr
      obtain ⟨fd', h1, h2⟩ := (hcov' r).2 fd hr
      exact ⟨fd', by simpa using h1, h2⟩
  have hnoopB : pruneTree (some S) [] ((pruneTree (some S) [] T1).1) =
      ((pruneTree (some S) [] T1).1, []) := by
    apply pruneTree_id _ (some S) [] hwfT'
    intro p e hp
    simpa using hwithin p e hp
  refine ⟨(pruneTree (some S) [] T1).1, evA ++ (pruneTree (some S) [] T1).2, hpass1, ?_⟩
  have hroot2 : phaseARoot (some S) (some ((pruneTree (some S) [] T1).1)) =
      .ok (some ((pruneTree (some S) [] T1).1), []) := by
    rw [phaseARoot]
    exact hnoopA
  simp only [sync, hroot2, exceptBind_ok]
  simp [pruneRoot, hnoopB]

/-- Witness for C2 as amended: a destination whose file `a` is newer than
the source's (and has different content); the first pass leaves it alone
and the second pass is silent. -/
theorem C2_second_pass_noop_witness :
    ∃ D1 ev1, sync (some (Tree.node 0 [] [("a", ⟨5, 1⟩)]))
        (some (.node 7 [] [("a", ⟨9, 2⟩)])) = .ok (some D1, ev1) ∧
      sync (some (Tree.node 0 [] [("a", ⟨5, 1⟩)])) (some D1) = .ok (some D1, []) :=
  C2_second_pass_noop (.node 0 [] [("a", ⟨5, 1⟩)]) (.node 7 [] [("a", ⟨9, 2⟩)]) rfl rfl rfl

end PySync
